import Mathlib

/-!
# proglog: the append-only record store (`internal/log/store.go`)

A shallow embedding of the record store and of the part of the Go runtime it
stands on (`os.File`, `bufio.Writer`, `encoding/binary`, `make`), followed by
the properties of the store.

* unsigned 64-bit values are natural numbers reduced `% 2 ^ 64` where the Go
  code can wrap; `int64(x)` is the two's-complement reading of `x`;
* a Go call that returns `(value, error)` is a tuple with an `Option IOErr`;
  a call that can raise a run-time panic returns an `Outcome`;
* methods on `*store` pass the store explicitly and return the new store;
  the mutex is not modelled, every method body runs to completion alone.
-/

namespace Proglog

/-! ## Bytes and the big-endian codec (`enc = binary.BigEndian`) -/

abbrev Byte := Fin 256

/-- The Go conversion `byte(x)`: the low eight bits of `x`. -/
def toByte (x : Nat) : Byte := ⟨x % 256, Nat.mod_lt x (by decide)⟩

/-- Function `binary.BigEndian.PutUint64`: the eight bytes of `v`, most significant first. -/
def PutUint64 (v : Nat) : List Byte :=
  [toByte (v / 2 ^ 56), toByte (v / 2 ^ 48), toByte (v / 2 ^ 40), toByte (v / 2 ^ 32),
   toByte (v / 2 ^ 24), toByte (v / 2 ^ 16), toByte (v / 2 ^ 8), toByte v]

/-- Function `binary.BigEndian.Uint64` on a slice of eight bytes (`0` on any other
length, which the store never passes). -/
def Uint64 : List Byte → Nat
  | [b0, b1, b2, b3, b4, b5, b6, b7] =>
      b7.val + b6.val * 2 ^ 8 + b5.val * 2 ^ 16 + b4.val * 2 ^ 24 + b3.val * 2 ^ 32
        + b2.val * 2 ^ 40 + b1.val * 2 ^ 48 + b0.val * 2 ^ 56
  | _ => 0

/-- The constant `lenWidth` of `store.go`. -/
def lenWidth : Nat := 8

/-- The conversion `int64(x)` of a `uint64`. -/
def int64 (x : Nat) : Int :=
  if x % 2 ^ 64 < 2 ^ 63 then ((x % 2 ^ 64 : Nat) : Int) else ((x % 2 ^ 64 : Nat) : Int) - 2 ^ 64

/-- Largest slice `make([]byte, n)` can ever allocate; above it the runtime
panics with `makeslice: len out of range` (`maxAlloc` is `1 << 48` on 64-bit
Linux). Below it the allocation still needs the memory (`OsFile.mem`). -/
def maxAlloc : Nat := 2 ^ 48

/-! ## Errors and outcomes -/

/-- The errors the file layer can hand back. -/
inductive IOErr where
  | eof
  | shortWrite
  | negativeOffset
  | closed
  | fault (code : Nat)
  deriving DecidableEq, Repr

/-- What a Go call does: it returns, or it does not (`panic` stands for a
run-time panic and for a fatal error of the runtime such as `out of memory`). -/
inductive Outcome (α : Type) where
  | ret (a : α)
  | panic
  deriving DecidableEq, Repr

/-! ## `os.File` -/

/-- An open file handle, the file it is open on, and what the process around
it answers.

`wfaults` and `rfaults` schedule the results of the coming `write` and `pread`
system calls: each call consumes the head, `none` (or an empty schedule) lets
the call go through, `some (k, e)` transfers at most `k` bytes and fails with
`e`. `pathSize` is `none` while the name of the handle (`f.Name()`) names the
file the handle is open on, and `some n` when that path now names another
file, of `n` bytes. `mem` is the number of bytes the runtime can hand out for
one new slice. -/
structure OsFile where
  content : List Byte
  offset : Nat
  appendMode : Bool
  closed : Bool
  wfaults : List (Option (Nat × IOErr))
  rfaults : List (Option (Nat × IOErr))
  statErr : Option IOErr
  closeErr : Option IOErr
  pathSize : Option Nat
  mem : Nat
  deriving DecidableEq, Repr

namespace OsFile

/-- Where the next `write` lands: the end of the file under `O_APPEND`, the
handle offset otherwise. -/
def wpos (f : OsFile) : Nat := if f.appendMode then f.content.length else f.offset

/-- The file content after `b` is written at `wpos` (a hole is zero-filled). -/
def overwrite (f : OsFile) (b : List Byte) : List Byte :=
  f.content.take f.wpos ++ List.replicate (f.wpos - f.content.length) (0 : Byte) ++ b
    ++ f.content.drop (f.wpos + b.length)

/-- The handle after `b` went to the file. -/
def wrote (f : OsFile) (b : List Byte) : OsFile :=
  { f with content := f.overwrite b, offset := f.wpos + b.length, wfaults := f.wfaults.tail }

/-- Method `(*os.File).Write`: the number of bytes written and the error. -/
def Write (f : OsFile) (b : List Byte) : Nat × Option IOErr × OsFile :=
  if f.closed then (0, some IOErr.closed, f)
  else
    match f.wfaults.head? with
    | some (some (k, e)) => ((b.take k).length, some e, f.wrote (b.take k))
    | _ => (b.length, none, f.wrote b)

/-- Method `(*os.File).ReadAt` into a buffer of `n` bytes: the bytes read and the
error. The offset is checked first; a buffer of length zero is never handed to
`pread`, which is where a closed handle is found out. -/
def ReadAt (f : OsFile) (n : Nat) (off : Int) : List Byte × Option IOErr × OsFile :=
  if off < 0 then ([], some IOErr.negativeOffset, f)
  else if n = 0 then ([], none, f)
  else if f.closed then ([], some IOErr.closed, f)
  else
    let avail := (f.content.drop off.toNat).take n
    let f' := { f with rfaults := f.rfaults.tail }
    match f.rfaults.head? with
    | some (some (k, e)) => (avail.take k, some e, f')
    | _ => if avail.length < n then (avail, some IOErr.eof, f') else (avail, none, f')

/-- Method `(*os.File).Close`: the descriptor is released whatever `close` answers. -/
def Close (f : OsFile) : Option IOErr × OsFile :=
  if f.closed then (some IOErr.closed, f)
  else (f.closeErr, { f with closed := true })

/-- Call `os.Stat(f.Name())` followed by `fi.Size()`: the size of the file the
path names, which is the handle's own file only while the path still names it. -/
def Stat (f : OsFile) : Except IOErr Nat :=
  match f.statErr with
  | some e => Except.error e
  | none => Except.ok (f.pathSize.getD f.content.length)

/-- The longest slice `make([]byte, n)` returns in the process of `f`. -/
def allocLimit (f : OsFile) : Nat := min maxAlloc f.mem

end OsFile

/-! ## `bufio.Writer` -/

/-- The writer of package `bufio`: the sticky error, the buffered bytes
`buf[0:n]` and the capacity `len(buf)`. The file it writes to is the store's
`File`, passed to every method. -/
structure Writer where
  err : Option IOErr
  buf : List Byte
  size : Nat
  deriving DecidableEq, Repr

/-- Capacity `bufio.NewWriter` gives the buffer. -/
def defaultBufSize : Nat := 4096

/-- Constructor `bufio.NewWriter(f)`. -/
def NewWriter : Writer := { err := none, buf := [], size := defaultBufSize }

namespace Writer

def Buffered (b : Writer) : Nat := b.buf.length

def Available (b : Writer) : Nat := b.size - b.buf.length

/-- Method `(*bufio.Writer).Flush`. -/
def Flush (b : Writer) (f : OsFile) : Option IOErr × Writer × OsFile :=
  match b.err with
  | some e => (some e, b, f)
  | none =>
    if b.buf.length = 0 then (none, b, f)
    else
      let r := f.Write b.buf
      let err := if r.1 < b.buf.length ∧ r.2.1 = none then some IOErr.shortWrite else r.2.1
      match err with
      | some e => (some e, { b with buf := b.buf.drop r.1, err := some e }, r.2.2)
      | none => (none, { b with buf := [] }, r.2.2)

/-- The `for len(p) > b.Available() && b.err == nil` loop of
`(*bufio.Writer).Write`, run for at most `fuel` rounds: the writer, the file,
what is left of `p` and the running count `nn`. -/
def writeLoop : Nat → Writer → OsFile → List Byte → Nat → Writer × OsFile × List Byte × Nat
  | 0, b, f, p, nn => (b, f, p, nn)
  | fuel + 1, b, f, p, nn =>
    if p.length > b.Available ∧ b.err = none then
      if b.Buffered = 0 then
        let r := f.Write p
        writeLoop fuel { b with err := r.2.1 } r.2.2 (p.drop r.1) (nn + r.1)
      else
        let n := min b.Available p.length
        let r := Flush { b with buf := b.buf ++ p.take n } f
        writeLoop fuel r.2.1 r.2.2 (p.drop n) (nn + n)
    else (b, f, p, nn)

/-- Method `(*bufio.Writer).Write`. Two rounds of the loop always reach its exit
(`writeLoop_exit`, `writeLoop_fuel`). -/
def Write (b : Writer) (f : OsFile) (p : List Byte) : Nat × Option IOErr × Writer × OsFile :=
  let r := writeLoop 2 b f p 0
  let b1 := r.1
  let p1 := r.2.2.1
  match b1.err with
  | some e => (r.2.2.2, some e, b1, r.2.1)
  | none =>
    let n := min b1.Available p1.length
    (r.2.2.2 + n, none, { b1 with buf := b1.buf ++ p1.take n }, r.2.1)

end Writer

/-- Function `binary.Write(w, enc, v)` for a `uint64`: the eight bytes go to the writer
in one `Write`, whose error is returned. -/
def binaryWrite (b : Writer) (f : OsFile) (v : Nat) : Option IOErr × Writer × OsFile :=
  let r := b.Write f (PutUint64 v)
  (r.2.1, r.2.2.1, r.2.2.2)

/-! ## The store -/

/-- The `store` struct; `buf` writes to `File`. -/
structure store where
  File : OsFile
  buf : Writer
  size : Nat
  deriving DecidableEq, Repr

/-- Function `newStore(f)`. -/
def newStore (f : OsFile) : Except IOErr store :=
  match f.Stat with
  | Except.error e => Except.error e
  | Except.ok sz => Except.ok { File := f, size := sz % 2 ^ 64, buf := NewWriter }

namespace store

/-- Method `(*store).Append`: `(n, pos, err)` and the store afterwards. -/
def Append (s : store) (p : List Byte) : (Nat × Nat × Option IOErr) × store :=
  let pos := s.size
  let r1 := binaryWrite s.buf s.File (p.length % 2 ^ 64)
  let s1 : store := { s with buf := r1.2.1, File := r1.2.2 }
  match r1.1 with
  | some e => ((0, 0, some e), s1)
  | none =>
    let r2 := s1.buf.Write s1.File p
    let s2 : store := { s1 with buf := r2.2.2.1, File := r2.2.2.2 }
    match r2.2.1 with
    | some e => ((0, 0, some e), s2)
    | none =>
      let w := r2.1 + lenWidth
      ((w % 2 ^ 64, pos, none), { s2 with size := (s2.size + w % 2 ^ 64) % 2 ^ 64 })

/-- Method `(*store).Read`: `(data, err)`, with `none` for the nil slice, or the
failure of `make([]byte, dataLength)` when the runtime cannot allocate
`dataLength` bytes; and the store afterwards. -/
def Read (s : store) (pos : Nat) : Outcome (Option (List Byte) × Option IOErr) × store :=
  let r0 := s.buf.Flush s.File
  let s1 : store := { s with buf := r0.2.1, File := r0.2.2 }
  match r0.1 with
  | some e => (Outcome.ret (none, some e), s1)
  | none =>
    let r1 := s1.File.ReadAt lenWidth (int64 pos)
    let s2 : store := { s1 with File := r1.2.2 }
    match r1.2.1 with
    | some e => (Outcome.ret (none, some e), s2)
    | none =>
      let dataLength := Uint64 r1.1
      if dataLength > s.File.allocLimit then (Outcome.panic, s2)
      else
        let r2 := s2.File.ReadAt dataLength (int64 ((pos + lenWidth) % 2 ^ 64))
        let s3 : store := { s2 with File := r2.2.2 }
        match r2.2.1 with
        | some e => (Outcome.ret (none, some e), s3)
        | none => (Outcome.ret (some r2.1, none), s3)

/-- Method `(*store).ReadAt` with a buffer of `n` bytes: the bytes placed at the
front of the buffer (their number is the returned count) and the error. -/
def ReadAt (s : store) (n : Nat) (off : Int) : (List Byte × Option IOErr) × store :=
  let r0 := s.buf.Flush s.File
  let s1 : store := { s with buf := r0.2.1, File := r0.2.2 }
  match r0.1 with
  | some e => (([], some e), s1)
  | none =>
    let r1 := s1.File.ReadAt n off
    ((r1.1, r1.2.1), { s1 with File := r1.2.2 })

/-- Method `(*store).Close`. -/
def Close (s : store) : Option IOErr × store :=
  let r0 := s.buf.Flush s.File
  let s1 : store := { s with buf := r0.2.1, File := r0.2.2 }
  match r0.1 with
  | some e => (some e, s1)
  | none =>
    let r1 := s1.File.Close
    (r1.1, { s1 with File := r1.2 })

/-- The bytes the store holds: those in the file, then those still buffered. -/
def logical (s : store) : List Byte := s.File.content ++ s.buf.buf

end store

/-! ## Sequences of calls -/

/-- A call on a store. -/
inductive Call where
  | Append (p : List Byte)
  | Read (pos : Nat)
  | ReadAt (n : Nat) (off : Int)
  deriving DecidableEq, Repr

/-- One call: the store afterwards when the call returned without error,
`none` when it returned an error or panicked. -/
def store.call (s : store) : Call → Option store
  | Call.Append p =>
    match (s.Append p).1.2.2 with
    | none => some (s.Append p).2
    | some _ => none
  | Call.Read pos =>
    match (s.Read pos).1 with
    | Outcome.ret (_, none) => some (s.Read pos).2
    | _ => none
  | Call.ReadAt n off =>
    match (s.ReadAt n off).1.2 with
    | none => some (s.ReadAt n off).2
    | some _ => none

/-- A sequence of calls that all return without error: the final store. -/
def store.run (s : store) : List Call → Option store
  | [] => some s
  | c :: cs =>
    match s.call c with
    | some s' => s'.run cs
    | none => none

/-- The frame of a payload: its length in eight bytes, then the payload. -/
def frame (p : List Byte) : List Byte := PutUint64 p.length ++ p

/-- The frames of a list of payloads, back to back. -/
def frames (ps : List (List Byte)) : List Byte := (ps.map frame).flatten

/-- A handle whose writes land at the end of the file: opened with `O_APPEND`,
or positioned there. -/
def AtEnd (f : OsFile) : Prop := f.appendMode = true ∨ f.offset = f.content.length

instance (f : OsFile) : Decidable (AtEnd f) := by unfold AtEnd; infer_instance

/-- No failure is scheduled and the handle is open. -/
def Healthy (f : OsFile) : Prop := f.closed = false ∧ f.wfaults = [] ∧ f.rfaults = []

instance (f : OsFile) : Decidable (Healthy f) := by unfold Healthy; infer_instance

/-- A file just created: empty, open, handle at offset `0`, in a process that
can allocate slices of up to one gibibyte. -/
def emptyFile : OsFile :=
  { content := [], offset := 0, appendMode := false, closed := false,
    wfaults := [], rfaults := [], statErr := none, closeErr := none,
    pathSize := none, mem := 2 ^ 30 }

/-- The bytes of an ASCII string. -/
def bytes (s : String) : List Byte := s.toList.map (fun c => toByte c.toNat)

/-- The payloads of the `Append` calls of a sequence, in order. -/
def appended : List Call → List (List Byte)
  | [] => []
  | Call.Append p :: cs => p :: appended cs
  | Call.Read _ :: cs => appended cs
  | Call.ReadAt _ _ :: cs => appended cs

/-- The store `newStore` builds over `emptyFile`. -/
def fresh : store := { File := emptyFile, buf := NewWriter, size := 0 }

/-- Successive `Append` calls that all return without error: the positions
they return, in order, and the store afterwards. -/
def store.appendAll : store → List (List Byte) → Option (List Nat × store)
  | s, [] => some ([], s)
  | s, p :: ps =>
    match (s.Append p).1.2.2 with
    | some _ => none
    | none =>
      match (s.Append p).2.appendAll ps with
      | some (l, s') => some ((s.Append p).1.2.1 :: l, s')
      | none => none

/-- The positions of back-to-back frames that start at `start`. -/
def chain : Nat → List (List Byte) → List Nat
  | _, [] => []
  | start, p :: ps => start :: chain (start + lenWidth + p.length) ps

/-- A new handle on the file of `f`, as `os.OpenFile` gives it with
`O_RDWR|O_CREATE|O_APPEND`: same bytes, open, nothing scheduled to fail, under
a name that names the file. -/
def reopen (f : OsFile) : OsFile :=
  { content := f.content, offset := 0, appendMode := true, closed := false,
    wfaults := [], rfaults := [], statErr := none, closeErr := none,
    pathSize := none, mem := f.mem }

/-- A new file on a device with no room left: the next `write` transfers
nothing and fails (`ENOSPC`, code 28). -/
def fullDisk : OsFile := { emptyFile with wfaults := [some (0, IOErr.fault 28)] }

/-- A store over `fullDisk` whose writer holds sixteen bytes
(`bufio.NewWriterSize(f, 16)`). -/
def smallBuf : store :=
  { File := fullDisk, buf := { err := none, buf := [], size := 16 }, size := 0 }

/-- A file cut short in its first frame: the length declares `2 ^ 63` bytes,
three follow. -/
def truncatedFile : OsFile := { emptyFile with content := PutUint64 (2 ^ 63) ++ bytes "abc" }

/-- A file that is one corrupt length: it declares `2 ^ 64 - 1` bytes, none follow. -/
def corruptFile : OsFile := { emptyFile with content := PutUint64 (2 ^ 64 - 1) }

/-! ## Runs that go on after a failed call -/

/-- The store after a call, whatever the call returned. -/
def store.after (s : store) : Call → store
  | Call.Append p => (s.Append p).2
  | Call.Read pos => (s.Read pos).2
  | Call.ReadAt n off => (s.ReadAt n off).2

/-- The store after a sequence of calls, failed ones included. -/
def store.play (s : store) : List Call → store
  | [] => s
  | c :: cs => (s.after c).play cs

/-- The payloads of the `Append` calls of a sequence that returned without
error, in order; the other calls may have failed. -/
def store.landed (s : store) : List Call → List (List Byte)
  | [] => []
  | Call.Append p :: cs =>
    match (s.Append p).1.2.2 with
    | none => p :: (s.Append p).2.landed cs
    | some _ => (s.Append p).2.landed cs
  | Call.Read pos :: cs => (s.Read pos).2.landed cs
  | Call.ReadAt n off :: cs => (s.ReadAt n off).2.landed cs

/-! ## Handles that do not write at the end, names that moved -/

/-- An existing file of twenty bytes `X` opened with `os.O_RDWR` and no
`O_APPEND`: the handle stands at offset `0`. -/
def plainFile : OsFile := { emptyFile with content := List.replicate 20 88 }

/-- The store `newStore` builds over `plainFile`. -/
def plain : store := { File := plainFile, buf := NewWriter, size := 20 }

/-- An empty file whose handle stands at offset `5`. -/
def seekedFile : OsFile := { emptyFile with offset := 5 }

/-- A handle on an empty file whose name now names another file, of five bytes. -/
def renamedFile : OsFile := { emptyFile with pathSize := some 5 }

/-- A new handle on the file of `f`, as `os.OpenFile` gives it with `O_RDWR`
and no `O_APPEND`: same bytes, handle at offset `0`. -/
def reopenPlain (f : OsFile) : OsFile := { reopen f with appendMode := false }

/-- The log of `"hello"` and `"world!"`, closed: twenty-seven bytes. -/
def helloLog : OsFile := (((fresh.Append (bytes "hello")).2.Append (bytes "world!")).2.Close).2.File

/-! ## The in-memory log (`internal/server/log.go`) -/

/-- The error values of package `server`. -/
inductive ServerErr where
  | offsetNotFound
  deriving DecidableEq, Repr

/-- The variable `ErrOffsetNotFound`. -/
abbrev ErrOffsetNotFound : ServerErr := ServerErr.offsetNotFound

/-- The `Record` struct; a nil `Value` is `none`. -/
structure Record where
  Value : Option (List Byte)
  Offset : Nat
  deriving DecidableEq, Repr

/-- The zero value `Record{}`. -/
def Record.zero : Record := { Value := none, Offset := 0 }

/-- The `Log` struct (without its mutex). -/
structure Log where
  records : List Record
  deriving DecidableEq, Repr

/-- Function `NewLog()`. -/
def NewLog : Log := { records := [] }

namespace Log

/-- Method `(*Log).Append`: `(offset, err)` and the log afterwards. -/
def Append (l : Log) (record : Record) : (Nat × Option ServerErr) × Log :=
  let size := l.records.length
  let record : Record := { record with Offset := size % 2 ^ 64 }
  ((size % 2 ^ 64, none), { l with records := l.records ++ [record] })

/-- Method `(*Log).Read`: `(record, err)`. -/
def Read (l : Log) (offset : Nat) : Record × Option ServerErr :=
  if h : offset ≥ l.records.length % 2 ^ 64 then (Record.zero, some ErrOffsetNotFound)
  else (l.records.get ⟨offset, Nat.lt_of_lt_of_le (Nat.lt_of_not_le h) (Nat.mod_le _ _)⟩, none)

/-- Successive `Append` calls, in order. -/
def appends (l : Log) : List Record → Log
  | [] => l
  | r :: rs => ((l.Append r).2).appends rs

end Log

/-- The records `rs` as a log stores them when the first of them lands at
index `n`: the `Value` passed, the `Offset` set to the index. -/
def stamp : Nat → List Record → List Record
  | _, [] => []
  | n, r :: rs => { r with Offset := n % 2 ^ 64 } :: stamp (n + 1) rs

/-! ## The codec -/

theorem PutUint64_length (v : Nat) : (PutUint64 v).length = 8 := rfl

theorem Uint64_PutUint64 (v : Nat) (h : v < 2 ^ 64) : Uint64 (PutUint64 v) = v := by
  simp only [PutUint64, Uint64, toByte]
  omega

theorem PutUint64_mod (v : Nat) : PutUint64 (v % 2 ^ 64) = PutUint64 v := by
  simp only [PutUint64, toByte, List.cons.injEq, Fin.mk.injEq, and_true]
  omega

theorem Uint64_lt (l : List Byte) : Uint64 l < 2 ^ 64 := by
  unfold Uint64
  split
  · rename_i b0 b1 b2 b3 b4 b5 b6 b7
    have h0 := b0.isLt; have h1 := b1.isLt; have h2 := b2.isLt; have h3 := b3.isLt
    have h4 := b4.isLt; have h5 := b5.isLt; have h6 := b6.isLt; have h7 := b7.isLt
    omega
  · norm_num


/-! ## The file layer -/

theorem OsFile.wpos_atEnd {f : OsFile} (h : AtEnd f) : f.wpos = f.content.length := by
  unfold OsFile.wpos
  rcases h with h | h
  · simp [h]
  · split <;> simp_all

theorem OsFile.overwrite_atEnd {f : OsFile} (h : AtEnd f) (b : List Byte) :
    f.overwrite b = f.content ++ b := by
  simp [OsFile.overwrite, OsFile.wpos_atEnd h]

theorem OsFile.wrote_content {f : OsFile} (h : AtEnd f) (b : List Byte) :
    (f.wrote b).content = f.content ++ b := by
  simp [OsFile.wrote, OsFile.overwrite_atEnd h]

theorem OsFile.wrote_atEnd {f : OsFile} (h : AtEnd f) (b : List Byte) : AtEnd (f.wrote b) := by
  have hc := OsFile.wrote_content h b
  have hw := OsFile.wpos_atEnd h
  rcases h with h | h
  · exact Or.inl (by simp [OsFile.wrote, h])
  · exact Or.inr (by rw [hc]; simp [OsFile.wrote, hw])

theorem OsFile.Write_atEnd {f : OsFile} (h : AtEnd f) (b : List Byte) : AtEnd (f.Write b).2.2 := by
  unfold OsFile.Write
  split
  · exact h
  · split
    · exact OsFile.wrote_atEnd h _
    · exact OsFile.wrote_atEnd h _

theorem OsFile.Write_ok {f : OsFile} {b : List Byte} (h : (f.Write b).2.1 = none) :
    (f.Write b).1 = b.length ∧ (f.Write b).2.2 = f.wrote b := by
  unfold OsFile.Write at h ⊢
  split at h
  · simp at h
  · rename_i hc
    simp only [hc, if_false, Bool.false_eq_true]
    split at h
    · simp at h
    · rename_i hh
      exact ⟨rfl, rfl⟩

theorem OsFile.Write_healthy {f : OsFile} (h : Healthy f) (b : List Byte) :
    (f.Write b).2.1 = none ∧ Healthy (f.Write b).2.2 := by
  obtain ⟨h1, h2, h3⟩ := h
  simp [OsFile.Write, h1, h2, OsFile.wrote, Healthy, h3]

theorem OsFile.ReadAt_content (f : OsFile) (n : Nat) (off : Int) :
    (f.ReadAt n off).2.2.content = f.content := by
  unfold OsFile.ReadAt
  split
  · rfl
  · split
    · rfl
    · split
      · rfl
      · dsimp only
        split
        · rfl
        · split <;> rfl


theorem OsFile.ReadAt_hit {f : OsFile} (h : Healthy f) (pre d post : List Byte)
    (hc : f.content = pre ++ d ++ post) :
    f.ReadAt d.length (pre.length : Int) = (d, none, f) := by
  obtain ⟨h1, h2, h3⟩ := h
  cases f
  simp only at h1 h2 h3 hc
  subst h1 h2 h3 hc
  by_cases hd : d.length = 0
  · have : d = [] := List.length_eq_zero.mp hd
    subst this
    simp [OsFile.ReadAt]
  · simp [OsFile.ReadAt, hd]

/-! ## The buffered writer -/

theorem Writer.Flush_ok {b : Writer} {f : OsFile} (h : (b.Flush f).1 = none) :
    b.err = none ∧ (b.Flush f).2.1 = { b with buf := [] } ∧
      (b.Flush f).2.2 = (if b.buf.length = 0 then f else f.wrote b.buf) := by
  unfold Writer.Flush at h ⊢
  split at h
  · simp at h
  · rename_i he
    refine ⟨he, ?_⟩
    by_cases hb : b.buf.length = 0
    · have : b.buf = [] := List.length_eq_zero.mp hb
      cases b
      simp_all
    · simp only [hb, if_false] at h ⊢
      split at h
      · simp at h
      · rename_i herr
        simp only [herr]
        by_cases hw : (f.Write b.buf).2.1 = none
        · exact ⟨trivial, (OsFile.Write_ok hw).2⟩
        · simp [hw] at herr

theorem Writer.Flush_err {b : Writer} {f : OsFile} {e : IOErr} (h : (b.Flush f).1 = some e) :
    (b.Flush f).2.1.err = some e := by
  unfold Writer.Flush at h ⊢
  split
  · rename_i e' he
    simp only [he] at h ⊢
    simpa using h
  · rename_i he
    simp only [he] at h
    by_cases hb : b.buf.length = 0
    · simp [hb] at h
    · simp only [hb, if_false] at h ⊢
      split at h
      · rename_i e' herr
        simp only [herr]
        simpa using h
      · simp at h

theorem Writer.Flush_atEnd (b : Writer) {f : OsFile} (h : AtEnd f) : AtEnd (b.Flush f).2.2 := by
  unfold Writer.Flush
  split
  · exact h
  · split
    · exact h
    · dsimp only
      split
      · exact OsFile.Write_atEnd h _
      · exact OsFile.Write_atEnd h _

theorem Writer.Flush_healthy {b : Writer} {f : OsFile} (hb : b.err = none) (h : Healthy f) :
    (b.Flush f).1 = none ∧ Healthy (b.Flush f).2.2 := by
  unfold Writer.Flush
  simp only [hb]
  by_cases hl : b.buf.length = 0
  · simp [hl, h]
  · have hw := OsFile.Write_healthy h b.buf
    have hn := (OsFile.Write_ok hw.1).1
    simp only [hl, if_false, hw.1, hn, lt_irrefl, false_and]
    exact ⟨trivial, hw.2⟩


theorem Writer.Flush_err_eq (b : Writer) (f : OsFile) : (b.Flush f).2.1.err = (b.Flush f).1 := by
  cases h : (b.Flush f).1 with
  | none => rw [(Writer.Flush_ok h).2.1]; exact (Writer.Flush_ok h).1
  | some e => exact Writer.Flush_err h

theorem Writer.Flush_size (b : Writer) (f : OsFile) : (b.Flush f).2.1.size = b.size := by
  unfold Writer.Flush
  split
  · rfl
  · split
    · rfl
    · dsimp only
      split <;> rfl

theorem Writer.Flush_stream {b : Writer} {f : OsFile} (ha : AtEnd f) (h : (b.Flush f).1 = none) :
    (b.Flush f).2.2.content = f.content ++ b.buf ∧ (b.Flush f).2.1.buf = [] := by
  obtain ⟨_, h2, h3⟩ := Writer.Flush_ok h
  rw [h2, h3]
  refine ⟨?_, rfl⟩
  by_cases hb : b.buf.length = 0
  · have : b.buf = [] := List.length_eq_zero.mp hb
    simp [this]
  · simp [hb, OsFile.wrote_content ha]

theorem OsFile.Write_le (f : OsFile) (b : List Byte) : (f.Write b).1 ≤ b.length := by
  unfold OsFile.Write
  split
  · exact Nat.zero_le _
  · split
    · simp [List.length_take]
    · exact le_refl _

theorem Writer.writeLoop_of_err (fuel : Nat) {b : Writer} {e : IOErr} (h : b.err = some e)
    (f : OsFile) (p : List Byte) (nn : Nat) : writeLoop fuel b f p nn = (b, f, p, nn) := by
  cases fuel with
  | zero => rfl
  | succ k => simp [writeLoop, h]

theorem Writer.writeLoop_atEnd (fuel : Nat) : ∀ (b : Writer) (f : OsFile) (p : List Byte) (nn : Nat),
    AtEnd f → AtEnd (writeLoop fuel b f p nn).2.1 := by
  induction fuel with
  | zero => intro b f p nn h; exact h
  | succ k ih =>
    intro b f p nn h
    unfold writeLoop
    split
    · split
      · exact ih _ _ _ _ (OsFile.Write_atEnd h _)
      · exact ih _ _ _ _ (Writer.Flush_atEnd _ h)
    · exact h

theorem Writer.writeLoop_size (fuel : Nat) : ∀ (b : Writer) (f : OsFile) (p : List Byte) (nn : Nat),
    (writeLoop fuel b f p nn).1.size = b.size := by
  induction fuel with
  | zero => intro b f p nn; rfl
  | succ k ih =>
    intro b f p nn
    unfold writeLoop
    split
    · split
      · rw [ih]
      · rw [ih, Writer.Flush_size]
    · rfl

theorem Writer.writeLoop_count (fuel : Nat) : ∀ (b : Writer) (f : OsFile) (p : List Byte) (nn : Nat),
    (writeLoop fuel b f p nn).2.2.2 + (writeLoop fuel b f p nn).2.2.1.length = nn + p.length := by
  induction fuel with
  | zero => intro b f p nn; rfl
  | succ k ih =>
    intro b f p nn
    unfold writeLoop
    split
    · split
      · rw [ih]
        have := OsFile.Write_le f p
        simp only [List.length_drop]
        omega
      · rw [ih]
        simp only [List.length_drop]
        omega
    · rfl

theorem Writer.writeLoop_exit_eq (k : Nat) {b : Writer} {p : List Byte}
    (hc : ¬(p.length > b.Available ∧ b.err = none)) (f : OsFile) (nn : Nat) :
    writeLoop (k + 1) b f p nn = (b, f, p, nn) := by
  rw [writeLoop, if_neg hc]

theorem Writer.writeLoop_direct_eq (k : Nat) {b : Writer} {p : List Byte}
    (hc : p.length > b.Available ∧ b.err = none) (hb : b.Buffered = 0) (f : OsFile) (nn : Nat) :
    writeLoop (k + 1) b f p nn =
      writeLoop k { b with err := (f.Write p).2.1 } (f.Write p).2.2 (p.drop (f.Write p).1)
        (nn + (f.Write p).1) := by
  rw [writeLoop, if_pos hc, if_pos hb]

theorem Writer.writeLoop_flush_eq (k : Nat) {b : Writer} {p : List Byte}
    (hc : p.length > b.Available ∧ b.err = none) (hb : ¬b.Buffered = 0) (f : OsFile) (nn : Nat) :
    writeLoop (k + 1) b f p nn =
      writeLoop k (Flush { b with buf := b.buf ++ p.take (min b.Available p.length) } f).2.1
        (Flush { b with buf := b.buf ++ p.take (min b.Available p.length) } f).2.2
        (p.drop (min b.Available p.length)) (nn + min b.Available p.length) := by
  rw [writeLoop, if_pos hc, if_neg hb]

theorem Writer.writeLoop_stream (fuel : Nat) : ∀ (b : Writer) (f : OsFile) (p : List Byte) (nn : Nat),
    AtEnd f → (writeLoop fuel b f p nn).1.err = none →
    (writeLoop fuel b f p nn).2.1.content ++ (writeLoop fuel b f p nn).1.buf
      ++ (writeLoop fuel b f p nn).2.2.1 = f.content ++ b.buf ++ p := by
  induction fuel with
  | zero => intro b f p nn _ _; rfl
  | succ k ih =>
    intro b f p nn ha he
    by_cases hc : p.length > b.Available ∧ b.err = none
    · by_cases hb : b.Buffered = 0
      · rw [Writer.writeLoop_direct_eq k hc hb] at he ⊢
        rcases Option.eq_none_or_eq_some (f.Write p).2.1 with hw | ⟨e, hw⟩
        · rw [ih _ _ _ _ (OsFile.Write_atEnd ha _) he]
          have hb0 : b.buf = [] := List.length_eq_zero.mp hb
          simp [(OsFile.Write_ok hw).1, (OsFile.Write_ok hw).2, OsFile.wrote_content ha, hb0]
        · rw [Writer.writeLoop_of_err k (e := e) (by simp [hw])] at he
          simp [hw] at he
      · rw [Writer.writeLoop_flush_eq k hc hb] at he ⊢
        generalize hb1 : ({ b with buf := b.buf ++ p.take (min b.Available p.length) } : Writer) = b1
          at he ⊢
        cases hf : (Flush b1 f).1 with
        | some e =>
          rw [Writer.writeLoop_of_err k (e := e) (by rw [Writer.Flush_err_eq]; exact hf)] at he
          rw [Writer.Flush_err_eq, hf] at he
          simp at he
        | none =>
          rw [ih _ _ _ _ (Writer.Flush_atEnd _ ha) he]
          obtain ⟨h1, h2⟩ := Writer.Flush_stream ha hf
          rw [h1, h2, ← hb1]
          simp
    · rw [Writer.writeLoop_exit_eq k hc]

theorem Writer.writeLoop_exit (b : Writer) (f : OsFile) (p : List Byte) (nn : Nat)
    (he : (writeLoop 2 b f p nn).1.err = none) :
    (writeLoop 2 b f p nn).2.2.1.length ≤ (writeLoop 2 b f p nn).1.Available := by
  have step1 : ∀ (b : Writer) (f : OsFile) (p : List Byte) (nn : Nat), b.buf = [] →
      (writeLoop 1 b f p nn).1.err = none →
      (writeLoop 1 b f p nn).2.2.1.length ≤ (writeLoop 1 b f p nn).1.Available := by
    intro b f p nn hb he
    by_cases hc : p.length > b.Available ∧ b.err = none
    · have hb0 : b.Buffered = 0 := by simp [Writer.Buffered, hb]
      rw [Writer.writeLoop_direct_eq 0 hc hb0] at he ⊢
      simp only [writeLoop] at he ⊢
      simp [(OsFile.Write_ok he).1]
    · rw [Writer.writeLoop_exit_eq 0 hc] at he ⊢
      simp only at he ⊢
      simp only [he, and_true] at hc
      omega
  by_cases hc : p.length > b.Available ∧ b.err = none
  · by_cases hb : b.Buffered = 0
    · rw [Writer.writeLoop_direct_eq 1 hc hb] at he ⊢
      have hb0 : b.buf = [] := List.length_eq_zero.mp hb
      exact step1 _ _ _ _ hb0 he
    · rw [Writer.writeLoop_flush_eq 1 hc hb] at he ⊢
      generalize hb1 : ({ b with buf := b.buf ++ p.take (min b.Available p.length) } : Writer) = b1
        at he ⊢
      cases hf : (Flush b1 f).1 with
      | some e =>
        rw [Writer.writeLoop_of_err 1 (e := e) (by rw [Writer.Flush_err_eq]; exact hf)] at he
        rw [Writer.Flush_err_eq, hf] at he
        simp at he
      | none =>
        refine step1 _ _ _ _ ?_ he
        rw [(Writer.Flush_ok hf).2.1]
  · rw [Writer.writeLoop_exit_eq 1 hc] at he ⊢
    simp only at he ⊢
    simp only [he, and_true] at hc
    omega

theorem Writer.writeLoop_fuel (k : Nat) (b : Writer) (f : OsFile) (p : List Byte) (nn : Nat) :
    writeLoop (k + 2) b f p nn = writeLoop 2 b f p nn := by
  have stop : ∀ (j : Nat) (b : Writer) (f : OsFile) (nn : Nat), writeLoop j b f [] nn = (b, f, [], nn) := by
    intro j b f nn
    cases j with
    | zero => rfl
    | succ j => exact Writer.writeLoop_exit_eq j (by simp) f nn
  have step1 : ∀ (j : Nat) (b : Writer) (f : OsFile) (p : List Byte) (nn : Nat), b.buf = [] →
      writeLoop (j + 1) b f p nn = writeLoop 1 b f p nn := by
    intro j b f p nn hb
    by_cases hc : p.length > b.Available ∧ b.err = none
    · have hb0 : b.Buffered = 0 := by simp [Writer.Buffered, hb]
      rw [Writer.writeLoop_direct_eq j hc hb0, Writer.writeLoop_direct_eq 0 hc hb0]
      cases hw : (f.Write p).2.1 with
      | some e => rw [Writer.writeLoop_of_err j (e := e) rfl, Writer.writeLoop_of_err 0 (e := e) rfl]
      | none =>
        have : p.drop (f.Write p).1 = [] := by simp [(OsFile.Write_ok hw).1]
        rw [this, stop, stop]
    · rw [Writer.writeLoop_exit_eq j hc, Writer.writeLoop_exit_eq 0 hc]
  by_cases hc : p.length > b.Available ∧ b.err = none
  · by_cases hb : b.Buffered = 0
    · rw [Writer.writeLoop_direct_eq (k + 1) hc hb, Writer.writeLoop_direct_eq 1 hc hb]
      exact step1 k _ _ _ _ (List.length_eq_zero.mp hb)
    · rw [Writer.writeLoop_flush_eq (k + 1) hc hb, Writer.writeLoop_flush_eq 1 hc hb]
      generalize hb1 : ({ b with buf := b.buf ++ p.take (min b.Available p.length) } : Writer) = b1
      cases hf : (Flush b1 f).1 with
      | some e =>
        rw [Writer.writeLoop_of_err (k + 1) (e := e) (by rw [Writer.Flush_err_eq]; exact hf),
          Writer.writeLoop_of_err 1 (e := e) (by rw [Writer.Flush_err_eq]; exact hf)]
      | none =>
        refine step1 k _ _ _ _ ?_
        rw [(Writer.Flush_ok hf).2.1]
  · rw [Writer.writeLoop_exit_eq (k + 1) hc, Writer.writeLoop_exit_eq 1 hc]


theorem Writer.Write_err_eq (b : Writer) (f : OsFile) (p : List Byte) :
    (b.Write f p).2.2.1.err = (b.Write f p).2.1 := by
  unfold Writer.Write
  dsimp only
  split
  · rename_i e he
    exact he
  · rename_i he
    exact he

theorem Writer.Write_loop_err {b : Writer} {f : OsFile} {p : List Byte}
    (h : (b.Write f p).2.1 = none) : (writeLoop 2 b f p 0).1.err = none := by
  unfold Writer.Write at h
  dsimp only at h
  split at h
  · simp at h
  · assumption

theorem Writer.Write_size (b : Writer) (f : OsFile) (p : List Byte) :
    (b.Write f p).2.2.1.size = b.size := by
  have hs := Writer.writeLoop_size 2 b f p 0
  unfold Writer.Write
  dsimp only
  split
  · exact hs
  · exact hs

theorem Writer.Write_keeps_atEnd (b : Writer) {f : OsFile} (ha : AtEnd f) (p : List Byte) :
    AtEnd (b.Write f p).2.2.2 := by
  have hs := Writer.writeLoop_atEnd 2 b f p 0 ha
  unfold Writer.Write
  dsimp only
  split
  · exact hs
  · exact hs

theorem Writer.Write_count {b : Writer} {f : OsFile} {p : List Byte}
    (h : (b.Write f p).2.1 = none) : (b.Write f p).1 = p.length := by
  have he := Writer.Write_loop_err h
  have hx := Writer.writeLoop_exit b f p 0 he
  have hn := Writer.writeLoop_count 2 b f p 0
  unfold Writer.Write
  dsimp only
  rw [he]
  dsimp only
  omega

theorem Writer.Write_stream {b : Writer} {f : OsFile} {p : List Byte} (ha : AtEnd f)
    (h : (b.Write f p).2.1 = none) :
    (b.Write f p).2.2.2.content ++ (b.Write f p).2.2.1.buf = f.content ++ b.buf ++ p := by
  have he := Writer.Write_loop_err h
  have hx := Writer.writeLoop_exit b f p 0 he
  have hn := Writer.writeLoop_stream 2 b f p 0 ha he
  unfold Writer.Write
  dsimp only
  rw [he]
  dsimp only
  rw [min_eq_right hx, List.take_length, ← List.append_assoc, hn]

/-! ## The store -/

theorem frame_length (p : List Byte) : (frame p).length = lenWidth + p.length := by
  simp [frame, PutUint64_length, lenWidth]

theorem store.Append_eq_of_len_err {s : store} {p : List Byte} {e : IOErr}
    (h1 : (binaryWrite s.buf s.File (p.length % 2 ^ 64)).1 = some e) :
    s.Append p = ((0, 0, some e),
      { s with buf := (binaryWrite s.buf s.File (p.length % 2 ^ 64)).2.1,
               File := (binaryWrite s.buf s.File (p.length % 2 ^ 64)).2.2 }) := by
  unfold store.Append
  dsimp only
  rw [h1]

theorem store.Append_eq_of_data_err {s : store} {p : List Byte} {e : IOErr}
    (h1 : (binaryWrite s.buf s.File (p.length % 2 ^ 64)).1 = none)
    (h2 : ((binaryWrite s.buf s.File (p.length % 2 ^ 64)).2.1.Write
      (binaryWrite s.buf s.File (p.length % 2 ^ 64)).2.2 p).2.1 = some e) :
    s.Append p = ((0, 0, some e),
      { s with buf := ((binaryWrite s.buf s.File (p.length % 2 ^ 64)).2.1.Write
                 (binaryWrite s.buf s.File (p.length % 2 ^ 64)).2.2 p).2.2.1,
               File := ((binaryWrite s.buf s.File (p.length % 2 ^ 64)).2.1.Write
                 (binaryWrite s.buf s.File (p.length % 2 ^ 64)).2.2 p).2.2.2 }) := by
  unfold store.Append
  dsimp only
  rw [h1]
  dsimp only
  rw [h2]

theorem store.Append_eq_of_ok {s : store} {p : List Byte}
    (h1 : (binaryWrite s.buf s.File (p.length % 2 ^ 64)).1 = none)
    (h2 : ((binaryWrite s.buf s.File (p.length % 2 ^ 64)).2.1.Write
      (binaryWrite s.buf s.File (p.length % 2 ^ 64)).2.2 p).2.1 = none) :
    s.Append p = (((p.length + lenWidth) % 2 ^ 64, s.size, none),
      { buf := ((binaryWrite s.buf s.File (p.length % 2 ^ 64)).2.1.Write
                 (binaryWrite s.buf s.File (p.length % 2 ^ 64)).2.2 p).2.2.1,
        File := ((binaryWrite s.buf s.File (p.length % 2 ^ 64)).2.1.Write
                 (binaryWrite s.buf s.File (p.length % 2 ^ 64)).2.2 p).2.2.2,
        size := (s.size + (p.length + lenWidth) % 2 ^ 64) % 2 ^ 64 }) := by
  unfold store.Append
  dsimp only
  rw [h1]
  dsimp only
  rw [h2]
  dsimp only
  rw [Writer.Write_count h2]

/-- The three ways `Append` can go: the length write fails, the payload write
fails, or both go through. -/
theorem store.Append_cases (s : store) (p : List Byte) :
    (∃ e, (binaryWrite s.buf s.File (p.length % 2 ^ 64)).1 = some e) ∨
    ((binaryWrite s.buf s.File (p.length % 2 ^ 64)).1 = none ∧
      ∃ e, ((binaryWrite s.buf s.File (p.length % 2 ^ 64)).2.1.Write
        (binaryWrite s.buf s.File (p.length % 2 ^ 64)).2.2 p).2.1 = some e) ∨
    ((binaryWrite s.buf s.File (p.length % 2 ^ 64)).1 = none ∧
      ((binaryWrite s.buf s.File (p.length % 2 ^ 64)).2.1.Write
        (binaryWrite s.buf s.File (p.length % 2 ^ 64)).2.2 p).2.1 = none) := by
  rcases Option.eq_none_or_eq_some (binaryWrite s.buf s.File (p.length % 2 ^ 64)).1 with h1 | ⟨e, h1⟩
  · rcases Option.eq_none_or_eq_some ((binaryWrite s.buf s.File (p.length % 2 ^ 64)).2.1.Write
        (binaryWrite s.buf s.File (p.length % 2 ^ 64)).2.2 p).2.1 with h2 | ⟨e, h2⟩
    · exact Or.inr (Or.inr ⟨h1, h2⟩)
    · exact Or.inr (Or.inl ⟨h1, e, h2⟩)
  · exact Or.inl ⟨e, h1⟩

theorem store.Append_err {s : store} {p : List Byte} {e : IOErr}
    (h : (s.Append p).1.2.2 = some e) :
    (s.Append p).1 = (0, 0, some e) ∧ (s.Append p).2.size = s.size ∧
      (s.Append p).2.buf.err = some e := by
  rcases store.Append_cases s p with ⟨e1, h1⟩ | ⟨h1, e2, h2⟩ | ⟨h1, h2⟩
  · rw [store.Append_eq_of_len_err h1] at h ⊢
    simp only [Option.some.injEq] at h
    subst h
    refine ⟨rfl, rfl, ?_⟩
    simp only [binaryWrite] at h1 ⊢
    rw [Writer.Write_err_eq]; exact h1
  · rw [store.Append_eq_of_data_err h1 h2] at h ⊢
    simp only [Option.some.injEq] at h
    subst h
    refine ⟨rfl, rfl, ?_⟩
    dsimp only
    rw [Writer.Write_err_eq]; exact h2
  · rw [store.Append_eq_of_ok h1 h2] at h
    simp at h

theorem store.Append_ok {s : store} {p : List Byte} (h : (s.Append p).1.2.2 = none) :
    (s.Append p).1 = ((p.length + lenWidth) % 2 ^ 64, s.size, none) ∧
      (s.Append p).2.size = (s.size + (p.length + lenWidth) % 2 ^ 64) % 2 ^ 64 ∧
      (s.Append p).2.buf.err = none := by
  rcases store.Append_cases s p with ⟨e1, h1⟩ | ⟨h1, e2, h2⟩ | ⟨h1, h2⟩
  · rw [store.Append_eq_of_len_err h1] at h
    simp at h
  · rw [store.Append_eq_of_data_err h1 h2] at h
    simp at h
  · rw [store.Append_eq_of_ok h1 h2]
    refine ⟨rfl, rfl, ?_⟩
    dsimp only
    rw [Writer.Write_err_eq]; exact h2

theorem store.Append_logical {s : store} {p : List Byte} (ha : AtEnd s.File)
    (h : (s.Append p).1.2.2 = none) :
    (s.Append p).2.logical = s.logical ++ frame p ∧ AtEnd (s.Append p).2.File := by
  rcases store.Append_cases s p with ⟨e1, h1⟩ | ⟨h1, e2, h2⟩ | ⟨h1, h2⟩
  · rw [store.Append_eq_of_len_err h1] at h
    simp at h
  · rw [store.Append_eq_of_data_err h1 h2] at h
    simp at h
  · rw [store.Append_eq_of_ok h1 h2]
    simp only [binaryWrite] at h1 h2 ⊢
    have a1 := Writer.Write_keeps_atEnd s.buf ha (PutUint64 (p.length % 2 ^ 64))
    have s1 := Writer.Write_stream ha h1
    have s2 := Writer.Write_stream a1 h2
    refine ⟨?_, Writer.Write_keeps_atEnd _ a1 p⟩
    simp only [store.logical, frame]
    rw [s2, s1, PutUint64_mod]
    simp


theorem OsFile.ReadAt_file (f : OsFile) (n : Nat) (off : Int) :
    (f.ReadAt n off).2.2 = f ∨ (f.ReadAt n off).2.2 = { f with rfaults := f.rfaults.tail } := by
  unfold OsFile.ReadAt
  split
  · exact Or.inl rfl
  · split
    · exact Or.inl rfl
    · split
      · exact Or.inl rfl
      · dsimp only
        split
        · exact Or.inr rfl
        · split <;> exact Or.inr rfl

theorem OsFile.ReadAt_atEnd {f : OsFile} (h : AtEnd f) (n : Nat) (off : Int) :
    AtEnd (f.ReadAt n off).2.2 := by
  rcases OsFile.ReadAt_file f n off with h1 | h1 <;> rw [h1] <;> exact h

theorem store.Read_eq_of_flush_err {s : store} {e : IOErr} (h : (s.buf.Flush s.File).1 = some e)
    (pos : Nat) :
    s.Read pos = (Outcome.ret (none, some e),
      { s with buf := (s.buf.Flush s.File).2.1, File := (s.buf.Flush s.File).2.2 }) := by
  unfold store.Read
  dsimp only
  rw [h]

theorem store.Read_frame (s : store) (pos : Nat) :
    (s.Read pos).2.size = s.size ∧ (s.Read pos).2.buf = (s.buf.Flush s.File).2.1 ∧
      (s.Read pos).2.File.content = (s.buf.Flush s.File).2.2.content ∧
      (AtEnd (s.buf.Flush s.File).2.2 → AtEnd (s.Read pos).2.File) := by
  unfold store.Read
  dsimp only
  split
  · exact ⟨rfl, rfl, rfl, id⟩
  · split
    · exact ⟨rfl, rfl, OsFile.ReadAt_content _ _ _, fun h => OsFile.ReadAt_atEnd h _ _⟩
    · split
      · exact ⟨rfl, rfl, OsFile.ReadAt_content _ _ _, fun h => OsFile.ReadAt_atEnd h _ _⟩
      · split
        · refine ⟨rfl, rfl, ?_, fun h => OsFile.ReadAt_atEnd (OsFile.ReadAt_atEnd h _ _) _ _⟩
          dsimp only
          rw [OsFile.ReadAt_content, OsFile.ReadAt_content]
        · refine ⟨rfl, rfl, ?_, fun h => OsFile.ReadAt_atEnd (OsFile.ReadAt_atEnd h _ _) _ _⟩
          dsimp only
          rw [OsFile.ReadAt_content, OsFile.ReadAt_content]

theorem store.Read_flush_of_ok {s : store} {pos : Nat} {x : Option (List Byte)}
    (h : (s.Read pos).1 = Outcome.ret (x, none)) : (s.buf.Flush s.File).1 = none := by
  rcases Option.eq_none_or_eq_some (s.buf.Flush s.File).1 with h0 | ⟨e, h0⟩
  · exact h0
  · rw [store.Read_eq_of_flush_err h0] at h
    simp at h

theorem store.ReadAt_frame (s : store) (n : Nat) (off : Int) :
    (s.ReadAt n off).2.size = s.size ∧ (s.ReadAt n off).2.buf = (s.buf.Flush s.File).2.1 ∧
      (s.ReadAt n off).2.File.content = (s.buf.Flush s.File).2.2.content ∧
      (AtEnd (s.buf.Flush s.File).2.2 → AtEnd (s.ReadAt n off).2.File) := by
  unfold store.ReadAt
  dsimp only
  split
  · exact ⟨rfl, rfl, rfl, id⟩
  · exact ⟨rfl, rfl, OsFile.ReadAt_content _ _ _, fun h => OsFile.ReadAt_atEnd h _ _⟩

theorem store.ReadAt_flush_of_ok {s : store} {n : Nat} {off : Int}
    (h : (s.ReadAt n off).1.2 = none) : (s.buf.Flush s.File).1 = none := by
  rcases Option.eq_none_or_eq_some (s.buf.Flush s.File).1 with h0 | ⟨e, h0⟩
  · exact h0
  · unfold store.ReadAt at h
    dsimp only at h
    rw [h0] at h
    simp at h

/-- What a flush that goes through leaves: nothing buffered, the bytes in the file. -/
theorem store.flush_logical {s : store} (ha : AtEnd s.File) (h : (s.buf.Flush s.File).1 = none) :
    (s.buf.Flush s.File).2.2.content = s.logical ∧ (s.buf.Flush s.File).2.1.buf = [] ∧
      (s.buf.Flush s.File).2.1.err = none := by
  obtain ⟨h1, h2⟩ := Writer.Flush_stream ha h
  exact ⟨h1, h2, by rw [Writer.Flush_err_eq]; exact h⟩

theorem frames_cons (p : List Byte) (ps : List (List Byte)) : frames (p :: ps) = frame p ++ frames ps := by
  simp [frames]

theorem frames_nil : frames [] = [] := rfl

/-- One call that returns without error keeps the handle at the end of the
file, extends the bytes held by the frame of an appended payload and by
nothing else, and moves `size` along. -/
theorem store.call_ok {s s' : store} {c : Call} (h : s.call c = some s') (ha : AtEnd s.File) :
    AtEnd s'.File ∧ s'.buf.err = none ∧ s'.logical = s.logical ++ frames (appended [c]) ∧
      (s.size = s.logical.length % 2 ^ 64 → s'.size = s'.logical.length % 2 ^ 64) := by
  cases c with
  | Append p =>
    simp only [store.call] at h
    split at h
    · rename_i hn
      simp only [Option.some.injEq] at h
      subst h
      obtain ⟨_, h2, h3⟩ := store.Append_ok hn
      obtain ⟨h4, h5⟩ := store.Append_logical ha hn
      refine ⟨h5, h3, ?_, ?_⟩
      · rw [h4]; simp [appended, frames]
      · intro hs
        rw [h2, h4, hs]
        simp only [List.length_append, frame_length]
        omega
    · simp at h
  | Read pos =>
    simp only [store.call] at h
    split at h
    · rename_i x hx
      simp only [Option.some.injEq] at h
      subst h
      have hf := store.Read_flush_of_ok hx
      obtain ⟨r1, r2, r3, r4⟩ := store.Read_frame s pos
      obtain ⟨f1, f2, f3⟩ := store.flush_logical ha hf
      refine ⟨r4 (Writer.Flush_atEnd _ ha), by rw [r2]; exact f3, ?_, ?_⟩
      · simp [store.logical, r2, r3, f1, f2, appended, frames_nil]
      · intro hs
        rw [r1, hs]
        simp [store.logical, r2, r3, f1, f2]
    · simp at h
  | ReadAt n off =>
    simp only [store.call] at h
    split at h
    · rename_i hx
      simp only [Option.some.injEq] at h
      subst h
      have hf := store.ReadAt_flush_of_ok hx
      obtain ⟨r1, r2, r3, r4⟩ := store.ReadAt_frame s n off
      obtain ⟨f1, f2, f3⟩ := store.flush_logical ha hf
      refine ⟨r4 (Writer.Flush_atEnd _ ha), by rw [r2]; exact f3, ?_, ?_⟩
      · simp [store.logical, r2, r3, f1, f2, appended, frames_nil]
      · intro hs
        rw [r1, hs]
        simp [store.logical, r2, r3, f1, f2]
    · simp at h


/-- A sequence of calls that all return without error, from a store whose
handle writes at the end of its file: the bytes held grow by the frames of the
appended payloads, in order, and by nothing else. -/
theorem store.run_ok (cs : List Call) : ∀ {s s' : store}, s.run cs = some s' → AtEnd s.File →
    s.buf.err = none →
    AtEnd s'.File ∧ s'.buf.err = none ∧ s'.logical = s.logical ++ frames (appended cs) ∧
      (s.size = s.logical.length % 2 ^ 64 → s'.size = s'.logical.length % 2 ^ 64) := by
  induction cs with
  | nil =>
    intro s s' h ha he
    simp only [store.run, Option.some.injEq] at h
    subst h
    exact ⟨ha, he, by simp [appended, frames_nil], id⟩
  | cons c cs ih =>
    intro s s' h ha he
    simp only [store.run] at h
    split at h
    · rename_i s1 hc
      obtain ⟨a1, e1, l1, z1⟩ := store.call_ok hc ha
      obtain ⟨a2, e2, l2, z2⟩ := ih h a1 e1
      refine ⟨a2, e2, ?_, fun hs => z2 (z1 hs)⟩
      rw [l2, l1]
      cases c <;> simp [appended, frames_cons, frames_nil]
    · simp at h

theorem newStore_ok {f : OsFile} {s : store} (h : newStore f = Except.ok s) :
    s.File = f ∧ s.buf = NewWriter ∧ s.size = (f.pathSize.getD f.content.length) % 2 ^ 64 ∧
      s.logical = f.content := by
  unfold newStore OsFile.Stat at h
  split at h
  · simp at h
  · rename_i sz hsz
    split at hsz
    · simp at hsz
    · simp only [Except.ok.injEq] at hsz h
      subst hsz h
      simp [store.logical, NewWriter]


theorem int64_of_lt {x : Nat} (h : x < 2 ^ 63) : int64 x = (x : Int) := by
  unfold int64
  have h1 : x % 2 ^ 64 = x := Nat.mod_eq_of_lt (by omega)
  rw [h1, if_pos h]

theorem int64_neg_of_ge {x : Nat} (h : 2 ^ 63 ≤ x) (h2 : x < 2 ^ 64) : int64 x < 0 := by
  unfold int64
  have h1 : x % 2 ^ 64 = x := Nat.mod_eq_of_lt h2
  rw [h1, if_neg (by omega)]
  omega

/-- Result of `Read` once the flush and both positional reads went through. -/
theorem store.Read_eq_of_ok {s : store} {pos : Nat} (d1 d2 : List Byte) {f2 f3 : OsFile}
    (h0 : (s.buf.Flush s.File).1 = none)
    (h1 : (s.buf.Flush s.File).2.2.ReadAt lenWidth (int64 pos) = (d1, none, f2))
    (hm : ¬Uint64 d1 > s.File.allocLimit)
    (h2 : f2.ReadAt (Uint64 d1) (int64 ((pos + lenWidth) % 2 ^ 64)) = (d2, none, f3)) :
    s.Read pos = (Outcome.ret (some d2, none),
      { s with buf := (s.buf.Flush s.File).2.1, File := f3 }) := by
  unfold store.Read
  dsimp only
  rw [h0]
  dsimp only
  rw [h1]
  dsimp only
  rw [if_neg hm, h2]

/-- Reading at the start of a frame: when the bytes held are `pre`, the frame
of `p`, then `post`, the handle is healthy and the file fits a signed offset,
`Read` at `pre.length` returns `p`. -/
theorem store.Read_hit {s : store} {pre p post : List Byte} (ha : AtEnd s.File)
    (hh : Healthy s.File) (he : s.buf.err = none) (hl : s.logical = pre ++ frame p ++ post)
    (hfit : s.logical.length < 2 ^ 63) (hp : p.length ≤ s.File.allocLimit) :
    (s.Read pre.length).1 = Outcome.ret (some p, none) := by
  obtain ⟨h0, hh1⟩ := Writer.Flush_healthy (f := s.File) he hh
  obtain ⟨c1, _, _⟩ := store.flush_logical ha h0
  have hlen : s.logical.length = pre.length + (8 + p.length) + post.length := by
    rw [hl]; simp only [List.length_append, frame_length, lenWidth]
  have hc1 : (s.buf.Flush s.File).2.2.content = pre ++ PutUint64 p.length ++ (p ++ post) := by
    rw [c1, hl]; simp [frame]
  have r1 := OsFile.ReadAt_hit hh1 pre (PutUint64 p.length) (p ++ post) hc1
  rw [PutUint64_length] at r1
  have hc2 : (s.buf.Flush s.File).2.2.content = (pre ++ PutUint64 p.length) ++ p ++ post := by
    rw [hc1]; simp
  have r2 := OsFile.ReadAt_hit hh1 (pre ++ PutUint64 p.length) p post hc2
  have hu : Uint64 (PutUint64 p.length) = p.length :=
    Uint64_PutUint64 _ (by omega)
  have i1 : int64 pre.length = (pre.length : Int) := int64_of_lt (by omega)
  have i2 : int64 ((pre.length + lenWidth) % 2 ^ 64) = ((pre ++ PutUint64 p.length).length : Int) := by
    have : (pre.length + lenWidth) % 2 ^ 64 = pre.length + 8 :=
      Nat.mod_eq_of_lt (by unfold lenWidth; omega)
    rw [this, int64_of_lt (by omega)]
    simp [PutUint64_length]
  rw [store.Read_eq_of_ok (PutUint64 p.length) p h0
    (by rw [i1]; exact r1) (by rw [hu]; omega) (by rw [hu, i2]; exact r2)]


theorem frames_length (ps : List (List Byte)) :
    (frames ps).length = (ps.map (fun p => 8 + p.length)).sum := by
  induction ps with
  | nil => rfl
  | cons p ps ih => simp [frames_cons, frame_length, lenWidth, ih]

theorem chain_length (ps : List (List Byte)) : ∀ a : Nat, (chain a ps).length = ps.length := by
  induction ps with
  | nil => intro a; rfl
  | cons p ps ih => intro a; simp [chain, ih]

theorem chain_ge (ps : List (List Byte)) : ∀ (a x : Nat), x ∈ chain a ps → a ≤ x := by
  induction ps with
  | nil => intro a x h; simp [chain] at h
  | cons p ps ih =>
    intro a x h
    simp only [chain, List.mem_cons] at h
    rcases h with h | h
    · omega
    · have := ih _ _ h
      omega

theorem chain_pairwise (ps : List (List Byte)) : ∀ a : Nat, (chain a ps).Pairwise (· < ·) := by
  induction ps with
  | nil => intro a; simp [chain]
  | cons p ps ih =>
    intro a
    simp only [chain, List.pairwise_cons]
    refine ⟨?_, ih _⟩
    intro x hx
    have := chain_ge ps _ x hx
    unfold lenWidth at this
    omega

theorem chain_step (ps : List (List Byte)) : ∀ (a i : Nat), i + 1 < ps.length →
    (chain a ps).getD (i + 1) 0 = (chain a ps).getD i 0 + 8 + (ps.getD i []).length := by
  induction ps with
  | nil => intro a i h; simp at h
  | cons p ps ih =>
    intro a i h
    cases i with
    | zero =>
      cases ps with
      | nil => simp at h
      | cons q qs => simp [chain, lenWidth]
    | succ j =>
      simp only [List.length_cons] at h
      have := ih (a + lenWidth + p.length) j (by omega)
      simpa [chain] using this

theorem store.appendAll_chain (ps : List (List Byte)) : ∀ (s s' : store) (poss : List Nat),
    s.appendAll ps = some (poss, s') → s.size + (frames ps).length < 2 ^ 64 →
    poss = chain s.size ps ∧ s'.size = s.size + (frames ps).length := by
  induction ps with
  | nil =>
    intro s s' poss h _
    simp only [store.appendAll, Option.some.injEq, Prod.mk.injEq] at h
    obtain ⟨h1, h2⟩ := h
    subst h1 h2
    simp [chain, frames_nil]
  | cons p ps ih =>
    intro s s' poss h hfit
    simp only [frames_cons, List.length_append, frame_length] at hfit ⊢
    simp only [store.appendAll] at h
    split at h
    · simp at h
    · rename_i hok
      obtain ⟨h1, h2, _⟩ := store.Append_ok hok
      have hsz : (s.Append p).2.size = s.size + lenWidth + p.length := by
        rw [h2, Nat.mod_eq_of_lt (a := p.length + lenWidth) (by omega)]
        rw [Nat.mod_eq_of_lt (by omega)]
        omega
      split at h
      · rename_i l s1 hrest
        simp only [Option.some.injEq, Prod.mk.injEq] at h
        obtain ⟨h3, h4⟩ := h
        subst h3 h4
        obtain ⟨i1, i2⟩ := ih _ _ _ hrest (by rw [hsz]; omega)
        rw [i1, i2, hsz, h1]
        refine ⟨rfl, ?_⟩
        omega
      · simp at h

theorem store.call_size {s s' : store} {c : Call} (h : s.call c = some s') (hs : s.size < 2 ^ 64) :
    s'.size = (s.size + (frames (appended [c])).length) % 2 ^ 64 := by
  cases c with
  | Append p =>
    simp only [store.call] at h
    split at h
    · rename_i hn
      simp only [Option.some.injEq] at h
      subst h
      rw [(store.Append_ok hn).2.1]
      simp only [appended, frames_cons, frames_nil, List.append_nil, frame_length]
      omega
    · simp at h
  | Read pos =>
    simp only [store.call] at h
    split at h
    · simp only [Option.some.injEq] at h
      subst h
      rw [(store.Read_frame s pos).1]
      simp only [appended, frames_nil, List.length_nil, Nat.add_zero]
      exact (Nat.mod_eq_of_lt hs).symm
    · simp at h
  | ReadAt n off =>
    simp only [store.call] at h
    split at h
    · simp only [Option.some.injEq] at h
      subst h
      rw [(store.ReadAt_frame s n off).1]
      simp only [appended, frames_nil, List.length_nil, Nat.add_zero]
      exact (Nat.mod_eq_of_lt hs).symm
    · simp at h

theorem store.run_size (cs : List Call) : ∀ {s s' : store}, s.run cs = some s' → s.size < 2 ^ 64 →
    s'.size = (s.size + (frames (appended cs)).length) % 2 ^ 64 := by
  induction cs with
  | nil =>
    intro s s' h hs
    simp only [store.run, Option.some.injEq] at h
    subst h
    simp only [appended, frames_nil, List.length_nil, Nat.add_zero]
    exact (Nat.mod_eq_of_lt hs).symm
  | cons c cs ih =>
    intro s s' h hs
    simp only [store.run] at h
    split at h
    · rename_i s1 hc
      have h1 := store.call_size hc hs
      have h2 := ih h (by rw [h1]; exact Nat.mod_lt _ (by norm_num))
      rw [h2, h1]
      have : frames (appended (c :: cs)) = frames (appended [c]) ++ frames (appended cs) := by
        cases c <;> simp [appended, frames_cons, frames_nil]
      rw [this, List.length_append]
      omega
    · simp at h

theorem OsFile.Close_content (f : OsFile) : (f.Close).2.content = f.content := by
  unfold OsFile.Close
  split <;> rfl

theorem store.Close_frame (s : store) :
    (s.Close).2.size = s.size ∧ (s.Close).2.buf = (s.buf.Flush s.File).2.1 ∧
      (s.Close).2.File.content = (s.buf.Flush s.File).2.2.content := by
  unfold store.Close
  dsimp only
  split
  · exact ⟨rfl, rfl, rfl⟩
  · exact ⟨rfl, rfl, OsFile.Close_content _⟩

theorem store.Close_eq_of_flush_err {s : store} {e : IOErr} (h : (s.buf.Flush s.File).1 = some e) :
    s.Close = (some e, { s with buf := (s.buf.Flush s.File).2.1, File := (s.buf.Flush s.File).2.2 }) := by
  unfold store.Close
  dsimp only
  rw [h]

theorem store.Close_flush_of_ok {s : store} (h : (s.Close).1 = none) :
    (s.buf.Flush s.File).1 = none := by
  rcases Option.eq_none_or_eq_some (s.buf.Flush s.File).1 with h0 | ⟨e, h0⟩
  · exact h0
  · rw [store.Close_eq_of_flush_err h0] at h
    simp at h

/-- A store reached from `newStore` by calls that returned without error:
the bytes held are the file as found, then the frames appended; the counter
follows them when the name of the handle names its file. -/
theorem store.reached {f : OsFile} {s0 s : store} {cs : List Call}
    (hnew : newStore f = Except.ok s0) (hend : AtEnd f) (hrun : s0.run cs = some s) :
    AtEnd s.File ∧ s.buf.err = none ∧ s.logical = f.content ++ frames (appended cs) ∧
      (f.pathSize = none → s.size = s.logical.length % 2 ^ 64) := by
  obtain ⟨n1, n2, n3, n4⟩ := newStore_ok hnew
  obtain ⟨a1, e1, l1, z1⟩ := store.run_ok cs hrun (by rw [n1]; exact hend) (by rw [n2]; rfl)
  exact ⟨a1, e1, by rw [l1, n4], fun hn => z1 (by rw [n3, n4, hn]; rfl)⟩

/-! ## What `Read` returns -/

theorem OsFile.ReadAt_ok {f : OsFile} {n : Nat} {off : Int} (h : (f.ReadAt n off).2.1 = none) :
    0 ≤ off ∧ (f.ReadAt n off).1 = (f.content.drop off.toNat).take n ∧
      (f.ReadAt n off).1.length = n := by
  unfold OsFile.ReadAt at h ⊢
  split at h
  · simp at h
  · rename_i ho
    rw [if_neg ho]
    refine ⟨by omega, ?_⟩
    split at h
    · rename_i hn
      rw [if_pos hn, hn]
      simp
    · rename_i hn
      rw [if_neg hn]
      split at h
      · simp at h
      · rename_i hc
        rw [if_neg hc]
        dsimp only at h ⊢
        split at h
        · simp at h
        · rename_i hh
          split at h
          · simp at h
          · rename_i hl
            rw [if_neg hl]
            refine ⟨rfl, ?_⟩
            have := List.length_take_le n (List.drop off.toNat f.content)
            dsimp only
            omega

theorem OsFile.ReadAt_short {f : OsFile} {n : Nat} {off : Int}
    (hs : (f.content.drop off.toNat).length < n) : (f.ReadAt n off).2.1 ≠ none := by
  intro h
  obtain ⟨_, h2, h3⟩ := OsFile.ReadAt_ok h
  rw [h2, List.length_take] at h3
  omega

theorem OsFile.ReadAt_neg {f : OsFile} {n : Nat} {off : Int} (ho : off < 0) :
    (f.ReadAt n off).2.1 ≠ none := by
  intro h
  have := (OsFile.ReadAt_ok h).1
  omega

theorem store.Read_eq_of_len_err {s : store} {pos : Nat} {e : IOErr}
    (h0 : (s.buf.Flush s.File).1 = none)
    (h1 : ((s.buf.Flush s.File).2.2.ReadAt lenWidth (int64 pos)).2.1 = some e) :
    (s.Read pos).1 = Outcome.ret (none, some e) := by
  unfold store.Read
  dsimp only
  rw [h0]
  dsimp only
  rw [h1]

/-- Oversize length: `Read` panics in `make` when the length read from the file is above the
allocation limit. -/
theorem store.Read_eq_of_oversize {s : store} {pos : Nat}
    (h0 : (s.buf.Flush s.File).1 = none)
    (h1 : ((s.buf.Flush s.File).2.2.ReadAt lenWidth (int64 pos)).2.1 = none)
    (hm : Uint64 ((s.buf.Flush s.File).2.2.ReadAt lenWidth (int64 pos)).1 > s.File.allocLimit) :
    (s.Read pos).1 = Outcome.panic := by
  unfold store.Read
  dsimp only
  rw [h0]
  dsimp only
  rw [h1]
  dsimp only
  rw [if_pos hm]

theorem store.Read_eq_of_data {s : store} {pos : Nat}
    (h0 : (s.buf.Flush s.File).1 = none)
    (h1 : ((s.buf.Flush s.File).2.2.ReadAt lenWidth (int64 pos)).2.1 = none)
    (hm : ¬Uint64 ((s.buf.Flush s.File).2.2.ReadAt lenWidth (int64 pos)).1 > s.File.allocLimit) :
    (s.Read pos).1 =
      match (((s.buf.Flush s.File).2.2.ReadAt lenWidth (int64 pos)).2.2.ReadAt
          (Uint64 ((s.buf.Flush s.File).2.2.ReadAt lenWidth (int64 pos)).1)
          (int64 ((pos + lenWidth) % 2 ^ 64))).2.1 with
      | some e => Outcome.ret (none, some e)
      | none => Outcome.ret (some (((s.buf.Flush s.File).2.2.ReadAt lenWidth (int64 pos)).2.2.ReadAt
          (Uint64 ((s.buf.Flush s.File).2.2.ReadAt lenWidth (int64 pos)).1)
          (int64 ((pos + lenWidth) % 2 ^ 64))).1, none) := by
  unfold store.Read
  dsimp only
  rw [h0]
  dsimp only
  rw [h1]
  dsimp only
  rw [if_neg hm]
  split <;> rfl

theorem OsFile.ReadAt_ok_nat {f : OsFile} {n x : Nat} (hx : x < 2 ^ 64)
    (h : (f.ReadAt n (int64 x)).2.1 = none) :
    (x < 2 ^ 63 ∧ (f.ReadAt n (int64 x)).1 = (f.content.drop x).take n ∧
      x + n ≤ f.content.length) ∨ (n = 0 ∧ x < 2 ^ 63 ∧ (f.ReadAt n (int64 x)).1 = []) := by
  obtain ⟨o1, d1, l1⟩ := OsFile.ReadAt_ok h
  have hp63 : x < 2 ^ 63 := by
    by_contra hc
    have := int64_neg_of_ge (x := x) (by omega) hx
    omega
  have hi : (int64 x).toNat = x := by rw [int64_of_lt hp63, Int.toNat_ofNat]
  rw [hi] at d1
  by_cases hn : n = 0
  · right
    refine ⟨hn, hp63, ?_⟩
    rw [d1, hn, List.take_zero]
  · left
    refine ⟨hp63, d1, ?_⟩
    rw [d1, List.length_take, List.length_drop] at l1
    omega

/-- No cut payload: `Read` never returns one: when it returns `d` without error,
with `c` the file content after its flush, eight bytes lie at `pos`, they
decode to the length of `d`, and `d` is the bytes of `c` in
`[pos + 8, pos + 8 + len(d))`. -/
theorem store.Read_ok_exact {s : store} {pos : Nat} {d : List Byte} (hpos : pos < 2 ^ 64)
    (h : (s.Read pos).1 = Outcome.ret (some d, none)) :
    pos + 8 + d.length ≤ (s.Read pos).2.File.content.length ∧
      Uint64 (((s.Read pos).2.File.content.drop pos).take 8) = d.length ∧
      d = ((s.Read pos).2.File.content.drop (pos + 8)).take d.length := by
  have h0 := store.Read_flush_of_ok h
  rw [(store.Read_frame s pos).2.2.1]
  rcases Option.eq_none_or_eq_some ((s.buf.Flush s.File).2.2.ReadAt lenWidth (int64 pos)).2.1
    with h1 | ⟨e, h1⟩
  · by_cases hm : Uint64 ((s.buf.Flush s.File).2.2.ReadAt lenWidth (int64 pos)).1 > s.File.allocLimit
    · rw [store.Read_eq_of_oversize h0 h1 hm] at h
      simp at h
    · rw [store.Read_eq_of_data h0 h1 hm] at h
      have hc2 := OsFile.ReadAt_content (s.buf.Flush s.File).2.2 lenWidth (int64 pos)
      have k1 := OsFile.ReadAt_ok_nat hpos h1
      generalize (s.buf.Flush s.File).2.2 = f1 at *
      generalize f1.ReadAt lenWidth (int64 pos) = r1 at *
      have hp63 : pos < 2 ^ 63 := by rcases k1 with k | k <;> omega
      have hd1 : r1.1 = (f1.content.drop pos).take 8 ∧ pos + 8 ≤ f1.content.length := by
        rcases k1 with ⟨_, k2, k3⟩ | ⟨k2, _⟩
        · exact ⟨k2, k3⟩
        · exact absurd k2 (by decide)
      have hw : (pos + lenWidth) % 2 ^ 64 = pos + 8 := by
        unfold lenWidth; exact Nat.mod_eq_of_lt (by omega)
      rw [hw, hd1.1] at h
      split at h
      · simp at h
      · rename_i h2
        simp only [Outcome.ret.injEq, Prod.mk.injEq, Option.some.injEq, and_true] at h
        have l2 := (OsFile.ReadAt_ok h2).2.2
        rw [h] at l2
        have k2 := OsFile.ReadAt_ok_nat (by omega) h2
        rw [h, hc2] at k2
        have hd8 := hd1.2
        refine ⟨?_, l2.symm, ?_⟩
        · rcases k2 with ⟨_, _, k4⟩ | ⟨k3, _, _⟩
          · omega
          · omega
        · rcases k2 with ⟨_, k3, _⟩ | ⟨k3, _, k4⟩
          · rw [l2]; exact k3
          · rw [k4]; simp
  · rw [store.Read_eq_of_len_err h0 h1] at h
    simp at h

/-- A cut frame is an error, as long as the declared length can be allocated:
when the flush of `Read` goes through and the file then holds fewer than eight
bytes from `pos`, or eight bytes that declare a length `L` the runtime can
allocate (`L ≤ allocLimit`) and fewer
than `L` bytes after them, `Read pos` returns an error and the nil slice. -/
theorem store.Read_cut_err {s : store} {pos : Nat} (hpos : pos < 2 ^ 64)
    (h0 : (s.buf.Flush s.File).1 = none)
    (hcut : (s.buf.Flush s.File).2.2.content.length < pos + 8 ∨
      (Uint64 (((s.buf.Flush s.File).2.2.content.drop pos).take 8) ≤ s.File.allocLimit ∧
        (s.buf.Flush s.File).2.2.content.length
          < pos + 8 + Uint64 (((s.buf.Flush s.File).2.2.content.drop pos).take 8))) :
    ∃ e, (s.Read pos).1 = Outcome.ret (none, some e) := by
  rcases Option.eq_none_or_eq_some ((s.buf.Flush s.File).2.2.ReadAt lenWidth (int64 pos)).2.1
    with h1 | ⟨e, h1⟩
  · have hc2 := OsFile.ReadAt_content (s.buf.Flush s.File).2.2 lenWidth (int64 pos)
    have k1 := OsFile.ReadAt_ok_nat hpos h1
    have hp63 : pos < 2 ^ 63 := by rcases k1 with k | k <;> omega
    have hd1 : ((s.buf.Flush s.File).2.2.ReadAt lenWidth (int64 pos)).1
        = ((s.buf.Flush s.File).2.2.content.drop pos).take 8 ∧
        pos + 8 ≤ (s.buf.Flush s.File).2.2.content.length := by
      rcases k1 with ⟨_, k2, k3⟩ | ⟨k2, _⟩
      · exact ⟨k2, k3⟩
      · exact absurd k2 (by decide)
    rcases hcut with hc | ⟨hm, hc⟩
    · omega
    · have hm' : ¬Uint64 ((s.buf.Flush s.File).2.2.ReadAt lenWidth (int64 pos)).1 > s.File.allocLimit := by
        rw [hd1.1]; omega
      rw [store.Read_eq_of_data h0 h1 hm']
      have hw : (pos + lenWidth) % 2 ^ 64 = pos + 8 := by
        unfold lenWidth; exact Nat.mod_eq_of_lt (by omega)
      rw [hw, hd1.1]
      split
      · rename_i e h2
        exact ⟨e, rfl⟩
      · rename_i h2
        exfalso
        have k2 := OsFile.ReadAt_ok_nat (by omega) h2
        rw [hc2] at k2
        rcases k2 with ⟨_, _, k4⟩ | ⟨k4, _⟩
        · omega
        · omega
  · exact ⟨e, store.Read_eq_of_len_err h0 h1⟩
/-! ## Runs that go on after a failed call -/

theorem store.landed_cons (s : store) (c : Call) (cs : List Call) :
    s.landed (c :: cs) = s.landed [c] ++ (s.after c).landed cs := by
  cases c with
  | Append p =>
    simp only [store.landed, store.after]
    split <;> rfl
  | Read pos => rfl
  | ReadAt n off => rfl

theorem store.after_size (s : store) (c : Call) (hs : s.size < 2 ^ 64) :
    (s.after c).size = (s.size + (frames (s.landed [c])).length) % 2 ^ 64 := by
  cases c with
  | Append p =>
    simp only [store.after, store.landed]
    rcases Option.eq_none_or_eq_some (s.Append p).1.2.2 with h | ⟨e, h⟩
    · rw [h, (store.Append_ok h).2.1]
      simp only [frames_cons, frames_nil, List.append_nil, frame_length]
      omega
    · rw [h, (store.Append_err h).2.1]
      simp only [frames_nil, List.length_nil, Nat.add_zero]
      exact (Nat.mod_eq_of_lt hs).symm
  | Read pos =>
    simp only [store.after, store.landed, frames_nil, List.length_nil, Nat.add_zero]
    rw [(store.Read_frame s pos).1]
    exact (Nat.mod_eq_of_lt hs).symm
  | ReadAt n off =>
    simp only [store.after, store.landed, frames_nil, List.length_nil, Nat.add_zero]
    rw [(store.ReadAt_frame s n off).1]
    exact (Nat.mod_eq_of_lt hs).symm

/-- The counter after any sequence of calls, failed ones included: the
counter before plus the frames of the payloads whose `Append` returned
without error. -/
theorem store.play_size (cs : List Call) : ∀ s : store, s.size < 2 ^ 64 →
    (s.play cs).size = (s.size + (frames (s.landed cs)).length) % 2 ^ 64 := by
  induction cs with
  | nil =>
    intro s hs
    simp only [store.play, store.landed, frames_nil, List.length_nil, Nat.add_zero]
    exact (Nat.mod_eq_of_lt hs).symm
  | cons c cs ih =>
    intro s hs
    have h1 := store.after_size s c hs
    have h2 := ih (s.after c) (by rw [h1]; exact Nat.mod_lt _ (by norm_num))
    have hL : (frames (s.landed [c] ++ (s.after c).landed cs)).length
        = (frames (s.landed [c])).length + (frames ((s.after c).landed cs)).length := by
      simp only [frames, List.map_append, List.flatten_append, List.length_append]
    rw [store.play, h2, store.landed_cons s c cs, hL, h1]
    omega

/-- A sequence of calls that all return without error is played as it is run,
and every payload lands. -/
theorem store.run_play (cs : List Call) : ∀ {s s' : store}, s.run cs = some s' →
    s.play cs = s' ∧ s.landed cs = appended cs := by
  induction cs with
  | nil =>
    intro s s' h
    simp only [store.run, Option.some.injEq] at h
    exact ⟨h, rfl⟩
  | cons c cs ih =>
    intro s s' h
    simp only [store.run] at h
    split at h
    · rename_i s1 hc
      have hs1 : s.after c = s1 ∧ s.landed [c] = appended [c] := by
        cases c with
        | Append p =>
          simp only [store.call] at hc
          split at hc
          · rename_i hn
            simp only [Option.some.injEq] at hc
            simp only [store.after, store.landed, appended, hn]
            exact ⟨hc, trivial⟩
          · simp at hc
        | Read pos =>
          simp only [store.call] at hc
          split at hc
          · simp only [Option.some.injEq] at hc
            exact ⟨hc, rfl⟩
          · simp at hc
        | ReadAt n off =>
          simp only [store.call] at hc
          split at hc
          · simp only [Option.some.injEq] at hc
            exact ⟨hc, rfl⟩
          · simp at hc
      obtain ⟨i1, i2⟩ := ih h
      rw [store.play, store.landed_cons s c cs, hs1.1, hs1.2, i1, i2]
      refine ⟨rfl, ?_⟩
      cases c <;> rfl
    · simp at h

/-! ## The claims -/

/-- C1 as amended, round trip: take a store obtained from `newStore` over a
file whose handle writes at its end (`O_APPEND`, or standing at the end) and
whose name names it, by calls that returned without error. If `Append p`
returns without error at position `pos`, then after any further calls that
returned without error (none at all included), with no failure pending on the
handle, the bytes held fitting a signed 64-bit offset and the runtime able to
allocate `len(p)` bytes, `Read pos` returns exactly `p` and no error. -/
theorem append_read_round_trip (f : OsFile) (s0 s s2 : store) (cs cs2 : List Call)
    (p : List Byte) (hnew : newStore f = Except.ok s0) (hend : AtEnd f)
    (hnamed : f.pathSize = none)
    (hrun : s0.run cs = some s) (happ : (s.Append p).1.2.2 = none)
    (hmore : (s.Append p).2.run cs2 = some s2) (hh : Healthy s2.File)
    (hfit : s2.logical.length < 2 ^ 63) (hp : p.length ≤ s2.File.allocLimit) :
    (s2.Read (s.Append p).1.2.1).1 = Outcome.ret (some p, none) := by
  obtain ⟨a1, _, _, z1⟩ := store.reached hnew hend hrun
  have hs : s.size = s.logical.length % 2 ^ 64 := z1 hnamed
  obtain ⟨p1, _, p3⟩ := store.Append_ok happ
  obtain ⟨l1, a2⟩ := store.Append_logical a1 happ
  obtain ⟨a3, e3, l3, _⟩ := store.run_ok cs2 hmore a2 p3
  rw [l1] at l3
  have hlen : s2.logical.length = s.logical.length + (frame p).length
      + (frames (appended cs2)).length := by
    rw [l3]; simp only [List.length_append]
  have hpos : (s.Append p).1.2.1 = s.logical.length := by
    rw [p1, hs]
    exact Nat.mod_eq_of_lt (by omega)
  rw [hpos]
  exact store.Read_hit a3 hh e3 l3 hfit hp

/-- Witness of C1: over a new file, `"hello"` is appended at position `0`,
then `"world!"`; `Read 0` returns `"hello"`. -/
theorem append_read_round_trip_witness :
    (((fresh.Append (bytes "hello")).2.Append (bytes "world!")).2.Read 0).1
      = Outcome.ret (some (bytes "hello"), none) :=
  append_read_round_trip emptyFile fresh fresh _ [] [Call.Append (bytes "world!")]
    (bytes "hello") rfl (by decide) rfl rfl (by decide) rfl (by decide) (by decide) (by decide)

/-- C1 as stated fails. Over an existing file of twenty bytes opened without
`O_APPEND`, `newStore` gives size `20`, `Append("hello")` returns position `20`
without error and `Read(20)` returns `io.EOF`: the frame went to offset `0`.
Over a handle whose name names another file, of five bytes, `Append("hello")`
returns position `5` and `Read(5)` does not return `"hello"`. -/
theorem round_trip_needs_handle_at_end :
    newStore plainFile = Except.ok plain ∧
      (plain.Append (bytes "hello")).1 = (13, 20, none) ∧
      ((plain.Append (bytes "hello")).2.Read 20).1 = Outcome.ret (none, some IOErr.eof) ∧
      newStore renamedFile = Except.ok (store.mk renamedFile NewWriter 5) ∧
      ((store.mk renamedFile NewWriter 5).Append (bytes "hello")).1 = (13, 5, none) ∧
      (((store.mk renamedFile NewWriter 5).Append (bytes "hello")).2.Read 5).1
        ≠ Outcome.ret (some (bytes "hello"), none) := by
  refine ⟨rfl, by decide, by decide, rfl, by decide, by decide⟩

/-- C2, position chaining: when successive `Append` calls with payloads
`p_1, p_2, ...` all return without error and the size counter does not pass
`2 ^ 64`, the returned positions start at the store's size, each is the one
before plus `8` plus the length of the payload before, they increase strictly,
and no two are equal (empty payloads included). -/
theorem append_positions_chain (s s' : store) (ps : List (List Byte)) (poss : List Nat)
    (hall : s.appendAll ps = some (poss, s'))
    (hfit : s.size + (ps.map (fun p => 8 + p.length)).sum < 2 ^ 64) :
    poss.length = ps.length ∧ poss.head? = (ps.head?.map fun _ => s.size) ∧
      (∀ i, i + 1 < ps.length →
        poss.getD (i + 1) 0 = poss.getD i 0 + 8 + (ps.getD i []).length) ∧
      poss.Pairwise (· < ·) ∧ poss.Nodup := by
  rw [← frames_length] at hfit
  obtain ⟨h1, _⟩ := store.appendAll_chain ps s s' poss hall hfit
  subst h1
  refine ⟨chain_length ps _, ?_, chain_step ps _, chain_pairwise ps _, ?_⟩
  · cases ps <;> simp [chain]
  · exact (chain_pairwise ps _).imp (fun h => Nat.ne_of_lt h)

/-- Witness of C2: over a new file the payloads `"hello"`, the empty one and
`"world!"` land at positions `0`, `13` and `21`. -/
theorem append_positions_chain_witness :
    (fresh.appendAll [bytes "hello", [], bytes "world!"]).map Prod.fst = some [0, 13, 21] ∧
      [0, 13, 21].Nodup :=
  ⟨by decide,
   (append_positions_chain fresh _ [bytes "hello", [], bytes "world!"] [0, 13, 21] rfl
      (by decide)).2.2.2.2⟩

/-- C3 as amended, size accounting: for a store made by `newStore` over an
empty file that the name of the handle names, after any sequence of calls
(`Read` and `ReadAt` calls that fail included) in which the `Append` calls that
returned without error carried `p_1 .. p_N`, the `size` field is the sum of
`8 + len(p_i)` as a `uint64`, hence that sum itself when it is below `2 ^ 64`;
and the next `Append` that returns without error returns `size` as its
position. When every call returns without error, `p_1 .. p_N` are the payloads
of all the `Append` calls. -/
theorem size_accounting (f : OsFile) (s0 : store) (cs : List Call)
    (hempty : f.content = []) (hnamed : f.pathSize = none)
    (hnew : newStore f = Except.ok s0) :
    (s0.play cs).size = ((s0.landed cs).map (fun p => 8 + p.length)).sum % 2 ^ 64 ∧
      (((s0.landed cs).map (fun p => 8 + p.length)).sum < 2 ^ 64 →
        (s0.play cs).size = ((s0.landed cs).map (fun p => 8 + p.length)).sum) ∧
      (∀ q, ((s0.play cs).Append q).1.2.2 = none →
        ((s0.play cs).Append q).1.2.1 = (s0.play cs).size) ∧
      (∀ s, s0.run cs = some s → s0.play cs = s ∧ s0.landed cs = appended cs) := by
  obtain ⟨_, _, n3, _⟩ := newStore_ok hnew
  have h0 : s0.size = 0 := by rw [n3, hnamed, hempty]; rfl
  have hs := store.play_size cs s0 (by rw [h0]; norm_num)
  rw [h0, Nat.zero_add, frames_length] at hs
  refine ⟨hs, fun hlt => by rw [hs]; exact Nat.mod_eq_of_lt hlt, ?_, fun s h => store.run_play cs h⟩
  intro q hq
  rw [(store.Append_ok hq).1]

/-- Witness of C3: `"hello"`, a `Read` at `99` that fails with `io.EOF`, then
`"world!"`, on a new file: the size is `27`, and so is the position of the
next `Append`. -/
theorem size_accounting_witness :
    ((fresh.Append (bytes "hello")).2.Read 99).1 = Outcome.ret (none, some IOErr.eof) ∧
      (((fresh.Append (bytes "hello")).2.Read 99).2.Append (bytes "world!")).2.size = 27 ∧
      ((((fresh.Append (bytes "hello")).2.Read 99).2.Append (bytes "world!")).2.Append
        (bytes "!")).1.2.1 = 27 :=
  have h := size_accounting emptyFile fresh
    [Call.Append (bytes "hello"), Call.Read 99, Call.Append (bytes "world!")] rfl rfl rfl
  ⟨by decide, h.2.1 (by decide), (h.2.2.1 (bytes "!") (by decide)).trans (h.2.1 (by decide))⟩

/-- C3 as stated fails. Over a handle on an empty file whose name names
another file, of five bytes, `newStore` starts the counter at `5`: with no
`Append` the size is `5`, not `0`, and after `Append("a")`, which returns
position `5`, it is `14`, not `9`. -/
theorem size_accounting_needs_name :
    renamedFile.content = [] ∧
      newStore renamedFile = Except.ok (store.mk renamedFile NewWriter 5) ∧
      (store.mk renamedFile NewWriter 5).size = 5 ∧
      ((store.mk renamedFile NewWriter 5).Append (bytes "a")).1 = (9, 5, none) ∧
      ((store.mk renamedFile NewWriter 5).Append (bytes "a")).2.size = 14 := by
  refine ⟨rfl, rfl, rfl, by decide, by decide⟩

/-- C4, one `Append`: for every store with size `s` and every payload `p`
whose frame keeps the counter below `2 ^ 64`, an `Append` that returns without
error returns `(8 + len(p), s)` and leaves the size at `s + 8 + len(p)`. On the
store over a new file: `Append("hello")` returns `(13, 0)`, `Append("world!")`
then returns `(14, 13)`, `Read(0)` returns `"hello"`, `Read(13)` returns
`"world!"`, and the size is `27`. -/
theorem append_postcondition :
    (∀ (s : store) (p : List Byte), (s.Append p).1.2.2 = none → s.size + 8 + p.length < 2 ^ 64 →
      (s.Append p).1 = (8 + p.length, s.size, none) ∧
        (s.Append p).2.size = s.size + 8 + p.length) ∧
    (newStore emptyFile = Except.ok fresh ∧
      (fresh.Append (bytes "hello")).1 = (13, 0, none) ∧
      ((fresh.Append (bytes "hello")).2.Append (bytes "world!")).1 = (14, 13, none) ∧
      (((fresh.Append (bytes "hello")).2.Append (bytes "world!")).2.Read 0).1
        = Outcome.ret (some (bytes "hello"), none) ∧
      (((fresh.Append (bytes "hello")).2.Append (bytes "world!")).2.Read 13).1
        = Outcome.ret (some (bytes "world!"), none) ∧
      ((((fresh.Append (bytes "hello")).2.Append (bytes "world!")).2.Read 0).2.Read 13).1
        = Outcome.ret (some (bytes "world!"), none) ∧
      ((fresh.Append (bytes "hello")).2.Append (bytes "world!")).2.size = 27 ∧
      ((((fresh.Append (bytes "hello")).2.Append (bytes "world!")).2.Read 0).2.Read 13).2.size
        = 27) := by
  refine ⟨?_, rfl, by decide, by decide, by decide, by decide, by decide, by decide, by decide⟩
  intro s p hok hfit
  obtain ⟨h1, h2, _⟩ := store.Append_ok hok
  have e1 : (p.length + lenWidth) % 2 ^ 64 = 8 + p.length := by
    unfold lenWidth
    rw [Nat.mod_eq_of_lt (by omega)]
    omega
  rw [h1, h2, e1]
  exact ⟨rfl, by rw [Nat.mod_eq_of_lt (by omega)]; omega⟩

/-- Witness of C4: the general part at the store left by `Append("hello")`
and the payload `"world!"`. -/
theorem append_postcondition_witness :
    ((fresh.Append (bytes "hello")).2.Append (bytes "world!")).1 = (14, 13, none) ∧
      ((fresh.Append (bytes "hello")).2.Append (bytes "world!")).2.size = 27 :=
  append_postcondition.1 (fresh.Append (bytes "hello")).2 (bytes "world!") (by decide) (by decide)

/-- C5 as amended, frame format on disk: for a store made by `newStore` over
an empty file whose handle writes at its end (`O_APPEND`, or standing at
offset `0`), after calls that returned without error with appended payloads
`p_1 .. p_N`, once the flush at the head of `Read`, `ReadAt` or `Close` has
gone through (it does when no failure is pending), the file content is exactly
`be64(len(p_1)) ++ p_1 ++ ... ++ be64(len(p_N)) ++ p_N`: no gap, header, footer
or padding. -/
theorem on_disk_frames (f : OsFile) (s0 s : store) (cs : List Call) (hempty : f.content = [])
    (hend : AtEnd f) (hnew : newStore f = Except.ok s0) (hrun : s0.run cs = some s) :
    (Healthy s.File → (s.buf.Flush s.File).1 = none) ∧
      ((s.buf.Flush s.File).1 = none →
        (∀ pos, (s.Read pos).2.File.content = frames (appended cs)) ∧
        (∀ n off, (s.ReadAt n off).2.File.content = frames (appended cs)) ∧
        (s.Close).2.File.content = frames (appended cs)) := by
  obtain ⟨a1, e1, l1, _⟩ := store.reached hnew hend hrun
  rw [hempty, List.nil_append] at l1
  refine ⟨fun hh => (Writer.Flush_healthy e1 hh).1, fun hf => ?_⟩
  obtain ⟨c1, _, _⟩ := store.flush_logical a1 hf
  rw [l1] at c1
  refine ⟨fun pos => ?_, fun n off => ?_, ?_⟩
  · rw [(store.Read_frame s pos).2.2.1, c1]
  · rw [(store.ReadAt_frame s n off).2.2.1, c1]
  · rw [(store.Close_frame s).2.2, c1]

/-- Witness of C5: after `"hello"` and `"world!"` on a new file, `Close` leaves
the twenty-seven bytes of the two frames in the file. -/
theorem on_disk_frames_witness :
    (((fresh.Append (bytes "hello")).2.Append (bytes "world!")).2.Close).2.File.content =
      [0, 0, 0, 0, 0, 0, 0, 5, 104, 101, 108, 108, 111,
       0, 0, 0, 0, 0, 0, 0, 6, 119, 111, 114, 108, 100, 33] :=
  ((on_disk_frames emptyFile fresh ((fresh.Append (bytes "hello")).2.Append (bytes "world!")).2
    [Call.Append (bytes "hello"), Call.Append (bytes "world!")] rfl (by decide) rfl rfl).2
      (by decide)).2.2

/-- C5 as stated fails. Over an empty file whose handle stands at offset `5`
(no `O_APPEND`), `Append("a")` and `Close` return without error and the file
holds five zero bytes before the frame: a gap, not the frame alone. -/
theorem on_disk_frames_needs_handle_at_end :
    seekedFile.content = [] ∧
      newStore seekedFile = Except.ok (store.mk seekedFile NewWriter 0) ∧
      ((store.mk seekedFile NewWriter 0).Append (bytes "a")).1 = (9, 0, none) ∧
      (((store.mk seekedFile NewWriter 0).Append (bytes "a")).2.Close).1 = none ∧
      (((store.mk seekedFile NewWriter 0).Append (bytes "a")).2.Close).2.File.content
        = [0, 0, 0, 0, 0, 0, 0, 0, 0, 0, 0, 0, 1, 97] ∧
      frames [bytes "a"] = [0, 0, 0, 0, 0, 0, 0, 1, 97] := by
  refine ⟨rfl, rfl, by decide, by decide, by decide, by decide⟩

/-- C6 as amended, reopening keeps the position: for a store reached from
`newStore`, over a file whose handle writes at its end and whose name names
it, by calls that returned without error, after a `Close` that returns
without error the file length (below `2 ^ 64`) is the store's final size; so
`newStore` over any handle on the same bytes, under a name that names them,
gives a store of that size, whose next `Append` that returns without error
returns it as position. -/
theorem reopen_position (f : OsFile) (s0 s : store) (cs : List Call)
    (hnew : newStore f = Except.ok s0) (hend : AtEnd f) (hnamed : f.pathSize = none)
    (hrun : s0.run cs = some s)
    (hclose : (s.Close).1 = none) (hsz : (s.Close).2.File.content.length < 2 ^ 64) :
    (s.Close).2.File.content.length = s.size ∧ (s.Close).2.size = s.size ∧
      ∀ (f' : OsFile) (t : store), f'.content = (s.Close).2.File.content →
        f'.pathSize = none → newStore f' = Except.ok t →
        t.size = s.size ∧ ∀ q, (t.Append q).1.2.2 = none → (t.Append q).1.2.1 = s.size := by
  obtain ⟨a1, e1, _, z1⟩ := store.reached hnew hend hrun
  have z2 := z1 hnamed
  obtain ⟨c1, _, _⟩ := store.flush_logical a1 (store.Close_flush_of_ok hclose)
  obtain ⟨k1, _, k3⟩ := store.Close_frame s
  rw [k3, c1] at hsz
  have hlen : (s.Close).2.File.content.length = s.size := by
    rw [k3, c1, z2, Nat.mod_eq_of_lt hsz]
  refine ⟨hlen, k1, ?_⟩
  intro f' t hsame hnamed' ht
  obtain ⟨_, _, n3, _⟩ := newStore_ok ht
  have hts : t.size = s.size := by
    rw [n3, hnamed', Option.getD_none, hsame, hlen, z2]
    exact Nat.mod_mod _ _
  refine ⟨hts, fun q hq => ?_⟩
  rw [(store.Append_ok hq).1, hts]

/-- Witness of C6: `"hello"` and `"world!"` are appended over a new file and
the store is closed; a store over the reopened file has size `27` and appends
at `27`. -/
theorem reopen_position_witness :
    (((fresh.Append (bytes "hello")).2.Append (bytes "world!")).2.Close).2.File.content.length = 27 ∧
      ∀ t : store, newStore (reopen
          (((fresh.Append (bytes "hello")).2.Append (bytes "world!")).2.Close).2.File)
          = Except.ok t →
        t.size = 27 ∧ ∀ q, (t.Append q).1.2.2 = none → (t.Append q).1.2.1 = 27 :=
  have h := reopen_position emptyFile fresh
    ((fresh.Append (bytes "hello")).2.Append (bytes "world!")).2
    [Call.Append (bytes "hello"), Call.Append (bytes "world!")] rfl (by decide) rfl rfl
    (by decide) (by decide)
  ⟨h.1, fun t ht => h.2.2
    (reopen (((fresh.Append (bytes "hello")).2.Append (bytes "world!")).2.Close).2.File) t rfl
    rfl ht⟩

/-- C6 as stated fails. Over an existing file of twenty bytes opened without
`O_APPEND`, `Append("hello")` returns without error and so does `Close`; the
store's final size is `33` and the file is still twenty bytes long, so a new
store over it starts at `20`. Over a handle on an empty file whose name names
another file, of five bytes, `Close` leaves an empty file and a size of `5`. -/
theorem reopen_position_needs_handle_at_end :
    newStore plainFile = Except.ok plain ∧
      (plain.Append (bytes "hello")).1 = (13, 20, none) ∧
      ((plain.Append (bytes "hello")).2.Close).1 = none ∧
      ((plain.Append (bytes "hello")).2.Close).2.size = 33 ∧
      ((plain.Append (bytes "hello")).2.Close).2.File.content.length = 20 ∧
      (newStore (reopen ((plain.Append (bytes "hello")).2.Close).2.File)).toOption.map
        (fun t => t.size) = some 20 ∧
      newStore renamedFile = Except.ok (store.mk renamedFile NewWriter 5) ∧
      ((store.mk renamedFile NewWriter 5).Close).1 = none ∧
      ((store.mk renamedFile NewWriter 5).Close).2.size = 5 ∧
      ((store.mk renamedFile NewWriter 5).Close).2.File.content.length = 0 := by
  refine ⟨rfl, by decide, by decide, by decide, by decide, by decide, rfl, by decide,
    by decide, by decide⟩

/-- C7 as amended, reopening keeps the data: a payload `p` appended without
error at position `pos` to a store (made by `newStore` over a file whose
handle writes at its end and whose name names it) that is then closed without
error is returned by `Read pos` on a store built by `newStore` over a handle on
the same bytes that writes at the end of the file, also after further calls
on the new store that returned without error (no failure pending at the
`Read`, the bytes held fitting a signed 64-bit offset, the runtime able to
allocate `len(p)` bytes). -/
theorem reopen_data (f f' : OsFile) (s0 s s2 t0 t : store) (cs cs2 cs3 : List Call)
    (p : List Byte) (hnew : newStore f = Except.ok s0) (hend : AtEnd f)
    (hnamed : f.pathSize = none)
    (hrun : s0.run cs = some s) (happ : (s.Append p).1.2.2 = none)
    (hmore : (s.Append p).2.run cs2 = some s2) (hclose : (s2.Close).1 = none)
    (hsame : f'.content = (s2.Close).2.File.content) (hend' : AtEnd f')
    (hnew' : newStore f' = Except.ok t0) (hrun' : t0.run cs3 = some t)
    (hh : Healthy t.File) (hfit : t.logical.length < 2 ^ 63)
    (hp : p.length ≤ t.File.allocLimit) :
    (t.Read (s.Append p).1.2.1).1 = Outcome.ret (some p, none) := by
  obtain ⟨a1, _, _, z1⟩ := store.reached hnew hend hrun
  have z2 := z1 hnamed
  obtain ⟨p1, _, p3⟩ := store.Append_ok happ
  obtain ⟨l1, a2⟩ := store.Append_logical a1 happ
  obtain ⟨a3, _, l3, _⟩ := store.run_ok cs2 hmore a2 p3
  obtain ⟨c1, _, _⟩ := store.flush_logical a3 (store.Close_flush_of_ok hclose)
  obtain ⟨b1, b2, b3, _⟩ := store.reached hnew' hend' hrun'
  rw [hsame, (store.Close_frame s2).2.2, c1, l3, l1] at b3
  have hlen : t.logical.length = s.logical.length + (frame p).length
      + (frames (appended cs2)).length + (frames (appended cs3)).length := by
    rw [b3]; simp only [List.length_append]
  have hpos : (s.Append p).1.2.1 = s.logical.length := by
    rw [p1, z2]
    exact Nat.mod_eq_of_lt (by omega)
  rw [hpos]
  have hl : t.logical = s.logical ++ frame p
      ++ (frames (appended cs2) ++ frames (appended cs3)) := by
    rw [b3]; simp
  exact store.Read_hit b1 hh b2 hl hfit hp

/-- Witness of C7: `"hello"` (at `0`) and `"world!"` are appended over a new
file and the store is closed; on a store over the reopened file, after a
further `Append("again")`, `Read 0` still returns `"hello"`. -/
theorem reopen_data_witness :
    (((store.mk (reopen
        (((fresh.Append (bytes "hello")).2.Append (bytes "world!")).2.Close).2.File)
        NewWriter 27).Append (bytes "again")).2.Read 0).1
      = Outcome.ret (some (bytes "hello"), none) :=
  reopen_data emptyFile
    (reopen (((fresh.Append (bytes "hello")).2.Append (bytes "world!")).2.Close).2.File)
    fresh fresh _ _ _ [] [Call.Append (bytes "world!")] [Call.Append (bytes "again")]
    (bytes "hello") rfl (by decide) rfl rfl (by decide) rfl (by decide) rfl (by decide) rfl rfl
    (by decide) (by decide) (by decide)

/-- C7 as stated fails. The log of `"hello"` (at `0`) and `"world!"`, closed,
is reopened without `O_APPEND`; on the new store `Append("again")` returns
position `27` without error, and then `Read(0)` returns `"again"`, not
`"hello"`, while `Read(27)` returns `io.EOF`: the new frame went over the
first one. And when the first store was made over a handle whose name names
another file, of five bytes, `"hello"` is appended at position `5`; after
`Close`, on a store over the file reopened with `O_APPEND`, `Read(5)` does not
return `"hello"`. -/
theorem reopen_data_needs_handle_at_end :
    (fresh.Append (bytes "hello")).1 = (13, 0, none) ∧
      helloLog.content = frames [bytes "hello", bytes "world!"] ∧
      newStore (reopenPlain helloLog)
        = Except.ok (store.mk (reopenPlain helloLog) NewWriter 27) ∧
      ((store.mk (reopenPlain helloLog) NewWriter 27).Append (bytes "again")).1
        = (13, 27, none) ∧
      (((store.mk (reopenPlain helloLog) NewWriter 27).Append (bytes "again")).2.Read 0).1
        = Outcome.ret (some (bytes "again"), none) ∧
      (((store.mk (reopenPlain helloLog) NewWriter 27).Append (bytes "again")).2.Read 27).1
        = Outcome.ret (none, some IOErr.eof) ∧
      ((store.mk renamedFile NewWriter 5).Append (bytes "hello")).1 = (13, 5, none) ∧
      (((store.mk renamedFile NewWriter 5).Append (bytes "hello")).2.Close).1 = none ∧
      ((store.mk (reopen
          (((store.mk renamedFile NewWriter 5).Append (bytes "hello")).2.Close).2.File)
          NewWriter 13).Read 5).1 ≠ Outcome.ret (some (bytes "hello"), none) := by
  refine ⟨by decide, by decide, rfl, by decide, by decide, by decide, by decide, by decide,
    by decide⟩

/-- C8, at the failing input: over the file cut short in its first frame (the
eight length bytes declare `2 ^ 63` bytes, three bytes follow), `Read 0` on the
store `newStore` builds returns neither an error nor a payload: it panics in
`make([]byte, dataLength)`. -/
theorem read_cut_frame_panics :
    truncatedFile.content.length = 11 ∧
      Uint64 (truncatedFile.content.take 8) = 2 ^ 63 ∧
      newStore truncatedFile
        = Except.ok { File := truncatedFile, buf := NewWriter, size := 11 } ∧
      ((store.mk truncatedFile NewWriter 11).Read 0).1 = Outcome.panic := by
  refine ⟨by decide, by decide, rfl, by decide⟩

/-- C9, a failed `Append` leaves the counter alone: for every store and
payload, when the write of the length fails, or the write of the payload
fails after it, `Append` returns `(0, 0, err)` with that error and the size is
what it was before the call. -/
theorem append_failure_keeps_size (s : store) (p : List Byte) (e : IOErr)
    (hfail : (binaryWrite s.buf s.File (p.length % 2 ^ 64)).1 = some e ∨
      ((binaryWrite s.buf s.File (p.length % 2 ^ 64)).1 = none ∧
        ((binaryWrite s.buf s.File (p.length % 2 ^ 64)).2.1.Write
          (binaryWrite s.buf s.File (p.length % 2 ^ 64)).2.2 p).2.1 = some e)) :
    (s.Append p).1 = (0, 0, some e) ∧ (s.Append p).2.size = s.size := by
  rcases hfail with h1 | ⟨h1, h2⟩
  · rw [store.Append_eq_of_len_err h1]
    exact ⟨rfl, rfl⟩
  · rw [store.Append_eq_of_data_err h1 h2]
    exact ⟨rfl, rfl⟩

/-- Witness of C9, both ways to fail. On a full disk, `Append("hello")` is
buffered and `Read 0` fails in its flush; the next `Append` fails at its
length write and the size stays `13`. With a sixteen-byte writer on a full
disk, the length of a twenty-byte payload is buffered and the payload write
fails; the size stays `0`. -/
theorem append_failure_keeps_size_witness :
    (((((store.mk fullDisk NewWriter 0).Append (bytes "hello")).2.Read 0).2.Append
        (bytes "x")).1 = (0, 0, some (IOErr.fault 28)) ∧
      ((((store.mk fullDisk NewWriter 0).Append (bytes "hello")).2.Read 0).2.Append
        (bytes "x")).2.size = 13) ∧
    ((smallBuf.Append (List.replicate 20 0)).1 = (0, 0, some (IOErr.fault 28)) ∧
      (smallBuf.Append (List.replicate 20 0)).2.size = 0) :=
  ⟨append_failure_keeps_size
      (((store.mk fullDisk NewWriter 0).Append (bytes "hello")).2.Read 0).2 (bytes "x")
      (IOErr.fault 28) (Or.inl (by decide)),
   append_failure_keeps_size smallBuf (List.replicate 20 0) (IOErr.fault 28)
      (Or.inr ⟨by decide, by decide⟩)⟩

/-- C10, at the failing input: over a file that holds only eight bytes
declaring a length of `2 ^ 64 - 1`, `Read 0` on the store `newStore` builds
does not return a read error: it panics in `make([]byte, dataLength)`. -/
theorem read_corrupt_length_panics :
    corruptFile.content.length = 8 ∧
      Uint64 (corruptFile.content.take 8) = 2 ^ 64 - 1 ∧
      newStore corruptFile = Except.ok { File := corruptFile, buf := NewWriter, size := 8 } ∧
      ((store.mk corruptFile NewWriter 8).Read 0).1 = Outcome.panic ∧
      ∀ x, ((store.mk corruptFile NewWriter 8).Read 0).1 ≠ Outcome.ret x := by
  refine ⟨by decide, by decide, rfl, by decide, fun x h => ?_⟩
  have hp : ((store.mk corruptFile NewWriter 8).Read 0).1 = Outcome.panic := by decide
  rw [hp] at h
  exact Outcome.noConfusion h


/-! ## The in-memory log -/

theorem Log.appends_records (rs : List Record) : ∀ l : Log,
    (l.appends rs).records = l.records ++ stamp l.records.length rs := by
  induction rs with
  | nil => intro l; simp [Log.appends, stamp]
  | cons r rs ih =>
    intro l
    rw [Log.appends, ih]
    simp [Log.Append, stamp]

theorem stamp_length (rs : List Record) : ∀ n : Nat, (stamp n rs).length = rs.length := by
  induction rs with
  | nil => intro n; rfl
  | cons r rs ih => intro n; simp [stamp, ih]

theorem stamp_getElem? (rs : List Record) : ∀ (n i : Nat),
    (stamp n rs)[i]? = (rs[i]?).map (fun r => { r with Offset := (n + i) % 2 ^ 64 }) := by
  induction rs with
  | nil => intro n i; simp [stamp]
  | cons r rs ih =>
    intro n i
    cases i with
    | zero => simp [stamp]
    | succ j =>
      simp only [stamp, List.getElem?_cons_succ, ih]
      have : n + 1 + j = n + (j + 1) := by omega
      rw [this]

theorem Log.Read_of_getElem? {l : Log} {k : Nat} {x : Record} (hn : l.records.length < 2 ^ 64)
    (hx : l.records[k]? = some x) : l.Read k = (x, none) := by
  have hk : k < l.records.length := by
    by_contra hc
    rw [List.getElem?_eq_none (by omega)] at hx
    simp at hx
  unfold Log.Read
  rw [dif_neg (by rw [Nat.mod_eq_of_lt hn]; omega)]
  rw [List.getElem?_eq_getElem hk] at hx
  simp only [Option.some.injEq] at hx
  rw [List.get_eq_getElem]
  simp only [hx]

theorem Log.Read_of_ge {l : Log} {k : Nat} (hn : l.records.length < 2 ^ 64)
    (hk : l.records.length ≤ k) : l.Read k = (Record.zero, some ErrOffsetNotFound) := by
  unfold Log.Read
  rw [dif_pos (by rw [Nat.mod_eq_of_lt hn]; omega)]

/-- C12, insertion order: for every `Log` holding `n` records (a slice length,
below `2 ^ 64`) and every record `r`, `Append(r)` returns `(n, nil)` and leaves
`n + 1` records of which the first `n` are the ones held before; on a new
`Log` the first `Append` returns offset `0`. -/
theorem log_append_numbers (l : Log) (r : Record) (hn : l.records.length < 2 ^ 64) :
    (l.Append r).1 = (l.records.length, none) ∧
      (l.Append r).2.records.length = l.records.length + 1 ∧
      (l.Append r).2.records.take l.records.length = l.records ∧
      (NewLog.Append r).1 = (0, none) := by
  refine ⟨?_, ?_, ?_, rfl⟩
  · unfold Log.Append
    dsimp only
    rw [Nat.mod_eq_of_lt hn]
  · simp [Log.Append]
  · simp [Log.Append]

/-- Witness of C12: a log that holds two records answers `2` to the third
`Append`, and the produce test's `"text record"` lands at offset `0`. -/
theorem log_append_numbers_witness :
    (((NewLog.appends [⟨some (bytes "a"), 7⟩, ⟨some (bytes "b"), 9⟩]).Append
        ⟨some (bytes "c"), 5⟩).1 = (2, none)) ∧
      (NewLog.Append ⟨some (bytes "text record"), 0⟩).1 = (0, none) :=
  have h := log_append_numbers (NewLog.appends [⟨some (bytes "a"), 7⟩, ⟨some (bytes "b"), 9⟩])
    ⟨some (bytes "c"), 5⟩ (by decide)
  ⟨h.1, by decide⟩

/-- C13, offset not found: for every `Log` holding `n` records (a slice
length, below `2 ^ 64`) and every offset `k`, `Read(k)` returns
`ErrOffsetNotFound` with the zero `Record` exactly when `k >= n`; otherwise it
returns the record at index `k` and no error. Every `Read` on a new `Log`
returns `ErrOffsetNotFound`. -/
theorem log_read_not_found (l : Log) (k : Nat) (hn : l.records.length < 2 ^ 64) :
    (l.Read k = (Record.zero, some ErrOffsetNotFound) ↔ l.records.length ≤ k) ∧
      (∀ h : k < l.records.length, l.Read k = (l.records.get ⟨k, h⟩, none)) ∧
      NewLog.Read k = (Record.zero, some ErrOffsetNotFound) := by
  refine ⟨⟨fun h => ?_, fun h => Log.Read_of_ge hn h⟩, fun h => ?_, ?_⟩
  · by_contra hc
    have hk : k < l.records.length := by omega
    rw [Log.Read_of_getElem? hn (List.getElem?_eq_getElem hk)] at h
    simp at h
  · rw [Log.Read_of_getElem? hn (List.getElem?_eq_getElem h), List.get_eq_getElem]
  · exact Log.Read_of_ge (by decide) (Nat.zero_le _)

/-- Witness of C13: on a log of two records `Read(1)` returns the second,
`Read(2)` is not found. -/
theorem log_read_not_found_witness :
    (NewLog.appends [⟨some (bytes "a"), 7⟩, ⟨some (bytes "b"), 9⟩]).Read 1
        = (⟨some (bytes "b"), 1⟩, none) ∧
      ((NewLog.appends [⟨some (bytes "a"), 7⟩, ⟨some (bytes "b"), 9⟩]).Read 2
        = (Record.zero, some ErrOffsetNotFound)) :=
  have h := log_read_not_found (NewLog.appends [⟨some (bytes "a"), 7⟩, ⟨some (bytes "b"), 9⟩])
  ⟨((h 1 (by decide)).2.1 (by decide)).trans (by decide), (h 2 (by decide)).1.2 (by decide)⟩


theorem Log.appends_append (a b : List Record) : ∀ l : Log,
    (l.appends a).appends b = l.appends (a ++ b) := by
  induction a with
  | nil => intro l; rfl
  | cons r a ih => intro l; exact ih (l.Append r).2

theorem Log.appends_new (rs : List Record) : (NewLog.appends rs).records = stamp 0 rs := by
  rw [Log.appends_records]
  simp [NewLog]

/-- C18, offsets are indices: in a `Log` built from `NewLog` by `Append` calls
with records `qs` (at most `2 ^ 64` of them), the record at index `i` has
`Offset` equal to `i`, whatever the caller passed, and the `Value` of the
`i`-th call. Hence when `Append(r)` returns `off`, `Read(off)` returns `r.Value`
with `Offset` equal to `off`, also after further `Append` calls (the log
holding fewer than `2 ^ 64` records). -/
theorem log_round_trip :
    (∀ (qs : List Record) (i : Nat), qs.length ≤ 2 ^ 64 →
      (NewLog.appends qs).records[i]? =
        (qs[i]?).map (fun q => ({ Value := q.Value, Offset := i } : Record))) ∧
    (∀ (rs rs2 : List Record) (r : Record), rs.length + 1 + rs2.length < 2 ^ 64 →
      ((NewLog.appends rs).Append r).1 = (rs.length, none) ∧
      (((NewLog.appends rs).Append r).2.appends rs2).Read ((NewLog.appends rs).Append r).1.1
        = ({ Value := r.Value, Offset := rs.length }, none)) := by
  constructor
  · intro qs i hq
    rw [Log.appends_new, stamp_getElem?, Nat.zero_add]
    by_cases hi : i < qs.length
    · rw [Nat.mod_eq_of_lt (by omega)]
    · rw [List.getElem?_eq_none (by omega)]
      rfl
  · intro rs rs2 r hn
    have hlen : (NewLog.appends rs).records.length = rs.length := by
      rw [Log.appends_new, stamp_length]
    have h1 : ((NewLog.appends rs).Append r).1 = (rs.length, none) := by
      unfold Log.Append
      dsimp only
      rw [hlen, Nat.mod_eq_of_lt (by omega)]
    refine ⟨h1, ?_⟩
    rw [h1]
    have hl : ((NewLog.appends rs).Append r).2.appends rs2 = NewLog.appends (rs ++ r :: rs2) := by
      rw [← Log.appends_append rs (r :: rs2)]
      rfl
    rw [hl]
    refine Log.Read_of_getElem? ?_ ?_
    · rw [Log.appends_new, stamp_length]
      simp only [List.length_append, List.length_cons]
      omega
    · have hg : (rs ++ r :: rs2)[rs.length]? = some r := by
        rw [List.getElem?_append_right (le_refl _)]
        simp
      rw [Log.appends_new, stamp_getElem?, Nat.zero_add, Nat.mod_eq_of_lt (by omega), hg]
      rfl

/-- Witness of C18: records passed with offsets `7`, `9`, `5` are stored with
offsets `0`, `1`, `2`; the second `Append` returns `1` and `Read(1)` returns
its value after a third `Append`. -/
theorem log_round_trip_witness :
    (NewLog.appends [⟨some (bytes "a"), 7⟩, ⟨some (bytes "b"), 9⟩, ⟨some (bytes "c"), 5⟩]).records
        = [⟨some (bytes "a"), 0⟩, ⟨some (bytes "b"), 1⟩, ⟨some (bytes "c"), 2⟩] ∧
      ((((NewLog.appends [⟨some (bytes "a"), 7⟩]).Append ⟨some (bytes "b"), 9⟩).2.appends
          [⟨some (bytes "c"), 5⟩]).Read
          ((NewLog.appends [⟨some (bytes "a"), 7⟩]).Append ⟨some (bytes "b"), 9⟩).1.1
        = (⟨some (bytes "b"), 1⟩, none)) :=
  ⟨by decide,
   (log_round_trip.2 [⟨some (bytes "a"), 7⟩] [⟨some (bytes "c"), 5⟩] ⟨some (bytes "b"), 9⟩
      (by decide)).2⟩

/-! ## Reads off a frame boundary -/

/-- C15, no boundary check: after `Append` of a payload of eight zero bytes on
the store over a new file (frame at `0`, sixteen bytes), position `8` is in
range and is not the start of a frame, yet `Read(8)` returns without error,
and returns the empty sequence, which is not the payload of the frame that
holds byte `8`. -/
theorem read_off_boundary :
    ∃ (ps : List (List Byte)) (poss : List Nat) (s : store) (pos : Nat) (d : List Byte),
      newStore emptyFile = Except.ok fresh ∧ fresh.appendAll ps = some (poss, s) ∧
      pos < s.size ∧ pos ∉ poss ∧ (s.Read pos).1 = Outcome.ret (some d, none) ∧
      (∀ p ∈ ps, d ≠ p) ∧
      ps = [List.replicate 8 0] ∧ pos = 8 ∧ d = [] :=
  ⟨[List.replicate 8 0], [0], (fresh.Append (List.replicate 8 0)).2, 8, [],
    rfl, rfl, by decide, by decide, by decide, by decide, rfl, rfl, rfl⟩


/-! ## Reads, the counter and `Close` -/

theorem OsFile.Write_closed (f : OsFile) (b : List Byte) : (f.Write b).2.2.closed = f.closed := by
  unfold OsFile.Write
  split
  · rfl
  · split <;> rfl

theorem Writer.Flush_closed (b : Writer) (f : OsFile) : (b.Flush f).2.2.closed = f.closed := by
  unfold Writer.Flush
  split
  · rfl
  · split
    · rfl
    · dsimp only
      split <;> exact OsFile.Write_closed _ _

theorem OsFile.ReadAt_in_range {f : OsFile} (h : Healthy f) (n : Nat) {off : Int} (h0 : 0 ≤ off)
    (hle : off.toNat + n ≤ f.content.length) :
    f.ReadAt n off = ((f.content.drop off.toNat).take n, none, f) := by
  have hc : f.content = f.content.take off.toNat ++ (f.content.drop off.toNat).take n
      ++ (f.content.drop off.toNat).drop n := by
    rw [List.append_assoc, List.take_append_drop, List.take_append_drop]
  have hl1 : (f.content.take off.toNat).length = off.toNat := by
    rw [List.length_take]; omega
  have hl2 : ((f.content.drop off.toNat).take n).length = n := by
    rw [List.length_take, List.length_drop]; omega
  have hr := OsFile.ReadAt_hit h _ _ _ hc
  rw [hl1, hl2, Int.toNat_of_nonneg h0] at hr
  exact hr

theorem store.ReadAt_eq_of_flush_ok {s : store} (h0 : (s.buf.Flush s.File).1 = none) (n : Nat)
    (off : Int) :
    s.ReadAt n off = ((((s.buf.Flush s.File).2.2.ReadAt n off).1,
        ((s.buf.Flush s.File).2.2.ReadAt n off).2.1),
      { s with buf := (s.buf.Flush s.File).2.1,
               File := ((s.buf.Flush s.File).2.2.ReadAt n off).2.2 }) := by
  unfold store.ReadAt
  dsimp only
  rw [h0]

/-- C11 as amended, `ReadAt` sees buffered appends: for a store reached from
`newStore`, over a file whose handle writes at its end and whose name names
it, by calls that returned without error, with no failure pending, every
offset `off >= 0` and every buffer of `n` bytes with `off + n <= size`:
`ReadAt` returns `n` bytes and no error, and the bytes are those in
`[off, off + n)` of the bytes held (file, then write buffer), which are the
file as `newStore` found it followed by the frames appended. -/
theorem readAt_sees_buffered (f : OsFile) (s0 s : store) (cs : List Call)
    (hnew : newStore f = Except.ok s0) (hend : AtEnd f) (hnamed : f.pathSize = none)
    (hrun : s0.run cs = some s)
    (hh : Healthy s.File) (n : Nat) (off : Int) (h0 : 0 ≤ off) (hle : off.toNat + n ≤ s.size) :
    (s.ReadAt n off).1 = ((s.logical.drop off.toNat).take n, none) ∧
      ((s.ReadAt n off).1.1).length = n ∧
      s.logical = f.content ++ frames (appended cs) := by
  obtain ⟨a1, e1, l1, z1⟩ := store.reached hnew hend hrun
  obtain ⟨hf, hh1⟩ := Writer.Flush_healthy e1 hh
  obtain ⟨c1, _, _⟩ := store.flush_logical a1 hf
  have hsz : s.size ≤ s.logical.length := by rw [z1 hnamed]; exact Nat.mod_le _ _
  have hr := OsFile.ReadAt_in_range hh1 n h0 (by rw [c1]; omega)
  rw [store.ReadAt_eq_of_flush_ok hf, hr, c1]
  refine ⟨rfl, ?_, l1⟩
  dsimp only
  rw [List.length_take, List.length_drop]
  omega

/-- Witness of C11: `"hello"` is appended over a new file and stays in the
write buffer; `ReadAt` with a buffer of five bytes at offset `8` returns
`"hello"`. -/
theorem readAt_sees_buffered_witness :
    (fresh.Append (bytes "hello")).2.File.content = [] ∧
      ((fresh.Append (bytes "hello")).2.ReadAt 5 8).1 = (bytes "hello", none) :=
  ⟨by decide,
   (readAt_sees_buffered emptyFile fresh (fresh.Append (bytes "hello")).2
      [Call.Append (bytes "hello")] rfl (by decide) rfl rfl (by decide) 5 8 (by decide)
      (by decide)).1⟩

/-- C11 as stated fails. Over an existing file of twenty bytes opened without
`O_APPEND`, after `Append("hello")` (position `20`, size `33`) a `ReadAt` of
thirteen bytes at offset `20` stays within `size` and returns no byte and
`io.EOF`: the flush put the frame at offset `0` and the file is still twenty
bytes long. Over a handle on an empty file whose name names another file, of
five bytes, `size` is `5` and a `ReadAt` of five bytes at offset `0` returns
`io.EOF`. -/
theorem readAt_needs_handle_at_end :
    newStore plainFile = Except.ok plain ∧
      plain.run [Call.Append (bytes "hello")] = some (plain.Append (bytes "hello")).2 ∧
      (plain.Append (bytes "hello")).2.size = 33 ∧
      ((plain.Append (bytes "hello")).2.ReadAt 13 20).1 = ([], some IOErr.eof) ∧
      ((plain.Append (bytes "hello")).2.ReadAt 13 20).2.File.content.length = 20 ∧
      newStore renamedFile = Except.ok (store.mk renamedFile NewWriter 5) ∧
      ((store.mk renamedFile NewWriter 5).ReadAt 5 0).1 = ([], some IOErr.eof) := by
  refine ⟨rfl, by decide, by decide, by decide, by decide, rfl, by decide⟩

/-- C16 as amended, counter and bytes written: for a store made by `newStore`
over a handle that writes at the end of its file and whose name names that
file, after calls that returned without error, `size` is the file length plus
the number of buffered bytes (as a `uint64`). An `Append` that returns without error adds `8 + len(p)` to both;
a `Read` or `ReadAt` that returns without error moves every buffered byte to
the file and leaves `size` alone. -/
theorem size_is_file_plus_buffer (f : OsFile) (s0 s : store) (cs : List Call)
    (hnew : newStore f = Except.ok s0) (hend : AtEnd f) (hnamed : f.pathSize = none)
    (hrun : s0.run cs = some s) :
    s.size = (s.File.content.length + s.buf.buf.length) % 2 ^ 64 ∧
      (s.File.content.length + s.buf.buf.length < 2 ^ 64 →
        s.size = s.File.content.length + s.buf.buf.length) ∧
      (∀ p, (s.Append p).1.2.2 = none →
        (s.Append p).2.File.content.length + (s.Append p).2.buf.buf.length
          = s.File.content.length + s.buf.buf.length + (8 + p.length) ∧
        (s.Append p).2.size = (s.size + (8 + p.length)) % 2 ^ 64) ∧
      (∀ pos x, (s.Read pos).1 = Outcome.ret (x, none) →
        (s.Read pos).2.File.content = s.File.content ++ s.buf.buf ∧
        (s.Read pos).2.buf.buf = [] ∧ (s.Read pos).2.size = s.size) ∧
      (∀ n off, (s.ReadAt n off).1.2 = none →
        (s.ReadAt n off).2.File.content = s.File.content ++ s.buf.buf ∧
        (s.ReadAt n off).2.buf.buf = [] ∧ (s.ReadAt n off).2.size = s.size) := by
  obtain ⟨a1, _, _, z1⟩ := store.reached hnew hend hrun
  have hz : s.size = (s.File.content.length + s.buf.buf.length) % 2 ^ 64 := by
    rw [z1 hnamed, store.logical, List.length_append]
  refine ⟨hz, fun hlt => by rw [hz]; exact Nat.mod_eq_of_lt hlt, ?_, ?_, ?_⟩
  · intro p hp
    obtain ⟨_, h2, _⟩ := store.Append_ok hp
    obtain ⟨h4, _⟩ := store.Append_logical a1 hp
    have hlen := congrArg List.length h4
    simp only [store.logical, List.length_append, frame_length, lenWidth] at hlen
    refine ⟨by omega, ?_⟩
    rw [h2]
    unfold lenWidth
    omega
  · intro pos x hx
    obtain ⟨r1, r2, r3, _⟩ := store.Read_frame s pos
    obtain ⟨f1, f2, _⟩ := store.flush_logical a1 (store.Read_flush_of_ok hx)
    exact ⟨by rw [r3, f1]; rfl, by rw [r2, f2], r1⟩
  · intro n off hx
    obtain ⟨r1, r2, r3, _⟩ := store.ReadAt_frame s n off
    obtain ⟨f1, f2, _⟩ := store.flush_logical a1 (store.ReadAt_flush_of_ok hx)
    exact ⟨by rw [r3, f1]; rfl, by rw [r2, f2], r1⟩

/-- Witness of C16: after `"hello"`, a `Read` and `"world!"` over a new file,
thirteen bytes are in the file, fourteen in the buffer, and `size` is `27`. -/
theorem size_is_file_plus_buffer_witness :
    (((fresh.Append (bytes "hello")).2.Read 0).2.Append (bytes "world!")).2.File.content.length
        = 13 ∧
      (((fresh.Append (bytes "hello")).2.Read 0).2.Append (bytes "world!")).2.buf.buf.length
        = 14 ∧
      (((fresh.Append (bytes "hello")).2.Read 0).2.Append (bytes "world!")).2.size = 13 + 14 :=
  ⟨by decide, by decide,
   (size_is_file_plus_buffer emptyFile fresh
      (((fresh.Append (bytes "hello")).2.Read 0).2.Append (bytes "world!")).2
      [Call.Append (bytes "hello"), Call.Read 0, Call.Append (bytes "world!")] rfl (by decide)
      rfl rfl).2.1 (by decide)⟩

/-- C16 as stated fails. Over an existing file of twenty bytes opened without
`O_APPEND`, `Append("hello")` and `Read(0)` both return without error;
afterwards `size` is `33` while the file holds twenty bytes and the buffer
none. Over a handle on an empty file whose name names another file, of five
bytes, `newStore` gives size `5` with nothing in the file or the buffer. -/
theorem size_invariant_needs_handle_at_end :
    newStore plainFile = Except.ok plain ∧
      plain.run [Call.Append (bytes "hello"), Call.Read 0]
        = some ((plain.Append (bytes "hello")).2.Read 0).2 ∧
      ((plain.Append (bytes "hello")).2.Read 0).2.size = 33 ∧
      ((plain.Append (bytes "hello")).2.Read 0).2.File.content.length = 20 ∧
      ((plain.Append (bytes "hello")).2.Read 0).2.buf.buf.length = 0 ∧
      newStore renamedFile = Except.ok (store.mk renamedFile NewWriter 5) ∧
      (store.mk renamedFile NewWriter 5).size = 5 ∧
      (store.mk renamedFile NewWriter 5).File.content.length = 0 ∧
      (store.mk renamedFile NewWriter 5).buf.buf.length = 0 := by
  refine ⟨rfl, by decide, by decide, by decide, by decide, rfl, rfl, rfl, rfl⟩

/-- C17 as amended, reads leave the log alone: for every store whose handle
writes at the end of its file (`O_APPEND`, or standing at the end), position, offset and buffer length, once the flush at the
head of `Read` or `ReadAt` has gone through (whatever the call then returns),
`size` is unchanged, the bytes held (file, then buffer) are unchanged, the
write buffer is empty and its bytes are at the end of the file. -/
theorem reads_leave_log (s : store) (ha : AtEnd s.File)
    (hf : (s.buf.Flush s.File).1 = none) :
    (∀ pos, (s.Read pos).2.size = s.size ∧ (s.Read pos).2.logical = s.logical ∧
        (s.Read pos).2.buf = { s.buf with buf := [] } ∧
        (s.Read pos).2.File.content = s.File.content ++ s.buf.buf) ∧
      (∀ n off, (s.ReadAt n off).2.size = s.size ∧ (s.ReadAt n off).2.logical = s.logical ∧
        (s.ReadAt n off).2.buf = { s.buf with buf := [] } ∧
        (s.ReadAt n off).2.File.content = s.File.content ++ s.buf.buf) := by
  obtain ⟨f1, f2, _⟩ := store.flush_logical ha hf
  have hb := (Writer.Flush_ok hf).2.1
  constructor
  · intro pos
    obtain ⟨r1, r2, r3, _⟩ := store.Read_frame s pos
    refine ⟨r1, ?_, by rw [r2, hb], by rw [r3, f1]; rfl⟩
    rw [store.logical, r2, r3, f1, f2, List.append_nil]
  · intro n off
    obtain ⟨r1, r2, r3, _⟩ := store.ReadAt_frame s n off
    refine ⟨r1, ?_, by rw [r2, hb], by rw [r3, f1]; rfl⟩
    rw [store.logical, r2, r3, f1, f2, List.append_nil]

/-- Witness of C17: after `Append("hello")` over a new file, a `Read` at the
out-of-range position `99` fails, and still leaves `size` at `13`, the buffer
empty and the thirteen bytes of the frame in the file. -/
theorem reads_leave_log_witness :
    (∃ e, ((fresh.Append (bytes "hello")).2.Read 99).1 = Outcome.ret (none, some e)) ∧
      ((fresh.Append (bytes "hello")).2.Read 99).2.size = 13 ∧
      ((fresh.Append (bytes "hello")).2.Read 99).2.buf.buf = [] ∧
      ((fresh.Append (bytes "hello")).2.Read 99).2.File.content = frame (bytes "hello") :=
  have h := (reads_leave_log (fresh.Append (bytes "hello")).2 (by decide) (by decide)).1 99
  ⟨⟨IOErr.eof, by decide⟩, h.1, congrArg Writer.buf h.2.2.1, h.2.2.2⟩

/-- C17 as stated fails. On the store over an existing file of twenty bytes
`X` opened without `O_APPEND`, with the frame of `"hello"` in the write buffer,
the flush of `Read(0)` goes through and writes the frame over the head of the
file: the bytes held were the twenty `X` and then the frame, and are afterwards
the frame and then seven `X`; the buffered bytes were not appended. -/
theorem reads_need_handle_at_end :
    ((plain.Append (bytes "hello")).2.buf.Flush (plain.Append (bytes "hello")).2.File).1 = none ∧
      (plain.Append (bytes "hello")).2.logical = List.replicate 20 88 ++ frame (bytes "hello") ∧
      ((plain.Append (bytes "hello")).2.Read 0).2.logical
        = frame (bytes "hello") ++ List.replicate 7 88 ∧
      ((plain.Append (bytes "hello")).2.Read 0).2.logical
        ≠ (plain.Append (bytes "hello")).2.logical ∧
      ((plain.Append (bytes "hello")).2.Read 0).2.File.content
        ≠ (plain.Append (bytes "hello")).2.File.content
          ++ (plain.Append (bytes "hello")).2.buf.buf := by
  refine ⟨by decide, by decide, by decide, by decide, by decide⟩

/-- C19, `Close` when the flush fails: for every store, when the flush in
`Close` fails with `e`, `Close` returns `e` and the handle is as the flush left
it, not closed if it was open; when the flush goes through, `Close` returns
what closing the file returns, and the handle is closed. -/
theorem close_flush_failure (s : store) :
    (∀ e, (s.buf.Flush s.File).1 = some e →
      (s.Close).1 = some e ∧ (s.Close).2.File = (s.buf.Flush s.File).2.2 ∧
        (s.Close).2.File.closed = s.File.closed) ∧
    ((s.buf.Flush s.File).1 = none →
      (s.Close).1 = ((s.buf.Flush s.File).2.2.Close).1 ∧
        (s.Close).2.File = ((s.buf.Flush s.File).2.2.Close).2 ∧
        (s.Close).2.File.closed = true) := by
  constructor
  · intro e he
    rw [store.Close_eq_of_flush_err he]
    exact ⟨rfl, rfl, Writer.Flush_closed _ _⟩
  · intro h0
    unfold store.Close
    dsimp only
    rw [h0]
    refine ⟨rfl, rfl, ?_⟩
    dsimp only
    unfold OsFile.Close
    split
    · assumption
    · rfl

/-- Witness of C19: on a full disk with `"hello"` buffered, `Close` returns
the write error and the handle stays open; over a new file it returns no
error and the handle is closed. -/
theorem close_flush_failure_witness :
    (((store.mk fullDisk NewWriter 0).Append (bytes "hello")).2.Close).1
        = some (IOErr.fault 28) ∧
      (((store.mk fullDisk NewWriter 0).Append (bytes "hello")).2.Close).2.File.closed = false ∧
      ((fresh.Append (bytes "hello")).2.Close).1 = none ∧
      ((fresh.Append (bytes "hello")).2.Close).2.File.closed = true :=
  have h1 := (close_flush_failure ((store.mk fullDisk NewWriter 0).Append (bytes "hello")).2).1
    (IOErr.fault 28) (by decide)
  have h2 := (close_flush_failure (fresh.Append (bytes "hello")).2).2 (by decide)
  ⟨h1.1, h1.2.2.trans (by decide), h2.1.trans (by decide), h2.2.2⟩


/-! ## Appends of equal size, one after the other -/

theorem chain_uniform (k : Nat) (ps : List (List Byte)) (hk : ∀ p ∈ ps, p.length = k) :
    ∀ a : Nat, chain a ps = (List.range ps.length).map (fun i => a + i * (8 + k)) := by
  induction ps with
  | nil => intro a; rfl
  | cons p ps ih =>
    intro a
    have hp : p.length = k := hk p (List.mem_cons_self _ _)
    rw [chain, ih (fun q hq => hk q (List.mem_cons_of_mem _ hq)), List.length_cons,
      List.range_succ_eq_map, List.map_cons, List.map_map, hp]
    congr 1
    · omega
    · apply List.map_congr_left
      intro i _
      simp only [Function.comp_apply, lenWidth]
      rw [Nat.succ_mul]
      omega

theorem frames_length_uniform (k : Nat) (ps : List (List Byte)) (hk : ∀ p ∈ ps, p.length = k) :
    (frames ps).length = ps.length * (8 + k) := by
  induction ps with
  | nil => simp [frames_nil]
  | cons p ps ih =>
    rw [frames_cons, List.length_append, frame_length,
      ih (fun q hq => hk q (List.mem_cons_of_mem _ hq)), hk p (List.mem_cons_self _ _),
      List.length_cons, Nat.succ_mul]
    unfold lenWidth
    omega

/-- Appends of `N` payloads of one size `k`, run one after the other in any
order, on a store of size `s0`: the positions returned are
`s0 + i * (8 + k)` for `i < N`, in order, all different, and the size ends at
`s0 + N * (8 + k)`. -/
theorem store.appendAll_uniform (s s' : store) (ps : List (List Byte)) (poss : List Nat)
    (k : Nat) (hall : s.appendAll ps = some (poss, s')) (hk : ∀ p ∈ ps, p.length = k)
    (hfit : s.size + ps.length * (8 + k) < 2 ^ 64) :
    poss = (List.range ps.length).map (fun i => s.size + i * (8 + k)) ∧ poss.Nodup ∧
      s'.size = s.size + ps.length * (8 + k) := by
  rw [← frames_length_uniform k ps hk] at hfit ⊢
  obtain ⟨h1, h2⟩ := store.appendAll_chain ps s s' poss hall hfit
  refine ⟨by rw [h1, chain_uniform k ps hk], ?_, h2⟩
  rw [h1]
  exact (chain_pairwise ps _).imp (fun h => Nat.ne_of_lt h)

end Proglog
